import Mathlib

/-!
Verification of the lazy-propagation segment tree of `segment-tree.cpp`
(`SegTree<Node, Op>`), as described by the repository specification.

The C++ template is embedded shallowly: the two duck-typed template
parameters `Node` and `Op` become a record `SegOps` of the operations the
engine requires; the mutable object (`size`, `vector<Node> tree`,
`vector<bool> hasPending`, `vector<Op> pending`) becomes an immutable
`SegState` of total maps, and every member function becomes a state-passing
function.  The recursive members `build`, `query` and `update` are defined
through a structurally decreasing fuel argument so that they evaluate inside
the kernel; the fuel is fixed by the wrapper to the range length and is
proved irrelevant beyond that bound, which recovers the exact recursion
equations of the C++ code.
-/

namespace SegLib

/-- Operations of the two template parameters `Node` and `Op` of
`SegTree<Node, Op>`: the default `Node` constructor, the single-element
constructor `Node(idx, val)`, `Node::join`, the default `Op` constructor,
`Op::apply` (returning the new node value instead of mutating in place) and
`Op::merge`. -/
structure SegOps (Node Op : Type) where
  init : Node
  leaf : Nat → Int → Node
  join : Node → Node → Node
  opInit : Op
  opApply : Op → Node → Nat → Nat → Node
  opMerge : Op → Op → Nat → Nat → Op

/-- State of a `SegTree<Node, Op>` object: field `size` and the three
arenas `tree`, `hasPending`, `pending`, modelled as total maps from node
indices (the vectors are sized `4 * n + 1`; claim C10 shows all accessed
indices lie in `[1, 4 * n]`). -/
structure SegState (Node Op : Type) where
  size : Nat
  tree : Nat → Node
  hasPending : Nat → Bool
  pending : Nat → Op

variable {Node Op : Type}

/-- Pointwise write to an arena map, modelling `v[i] = x`. -/
def setF {α : Type} (f : Nat → α) (i : Nat) (x : α) : Nat → α :=
  fun k => if k = i then x else f k

@[simp] theorem setF_same {α : Type} (f : Nat → α) (i : Nat) (x : α) :
    setF f i x i = x := by
  simp [setF]

theorem setF_other {α : Type} (f : Nat → α) (i k : Nat) (x : α) (h : k ≠ i) :
    setF f i x k = f k := by
  simp [setF, h]

/-- Child index arithmetic `left(node) = 2 * node`. -/
def left (node : Nat) : Nat := 2 * node

/-- Child index arithmetic `right(node) = 2 * node + 1`. -/
def right (node : Nat) : Nat := 2 * node + 1

/-- Fuel-indexed form of the private member
`update(node, st, end, i, j, op)` of `SegTree`, with `applyPending` inlined
at its single use site (the partially-overlapping branch).  The fuel only
bounds the recursion depth; `updateGo_fuel` proves it irrelevant from
`en - st + 1` upwards. -/
def updateGo (O : SegOps Node Op) :
    Nat → SegState Node Op → Nat → Nat → Nat → Int → Int → Op → SegState Node Op
  | 0, s, _, _, _, _, _, _ => s
  | fuel+1, s, node, st, en, i, j, op =>
    if j < (st : Int) ∨ (en : Int) < i then s
    else if st = en then
      { s with tree := setF s.tree node (O.opApply op (s.tree node) st en) }
    else if i ≤ (st : Int) ∧ (en : Int) ≤ j then
      { s with
        tree := setF s.tree node (O.opApply op (s.tree node) st en),
        pending := setF s.pending node
          (if s.hasPending node then O.opMerge (s.pending node) op st en else op),
        hasPending := setF s.hasPending node true }
    else
      let m := (st + en) / 2
      let s1 :=
        if s.hasPending node then
          let sa := updateGo O fuel s (left node) st m (st : Int) (en : Int) (s.pending node)
          let sb := updateGo O fuel sa (right node) (m+1) en (st : Int) (en : Int)
            (sa.pending node)
          { sb with hasPending := setF sb.hasPending node false }
        else s
      let s2 := if i ≤ (m : Int) then updateGo O fuel s1 (left node) st m i j op else s1
      let s3 := if (m : Int) < j then updateGo O fuel s2 (right node) (m+1) en i j op else s2
      { s3 with tree := setF s3.tree node (O.join (s3.tree (left node)) (s3.tree (right node))) }

/-- The private member `update(node, st, end, i, j, op)`: the fuel is fixed
to the range length, which always suffices. -/
def updateAux (O : SegOps Node Op) (s : SegState Node Op) (node st en : Nat)
    (i j : Int) (op : Op) : SegState Node Op :=
  updateGo O (en - st + 1) s node st en i j op

/-- The private member `applyPending(node, st, end)`: push the pending
update of `node` into both children and clear the flag. -/
def applyPending (O : SegOps Node Op) (s : SegState Node Op) (node st en : Nat) :
    SegState Node Op :=
  if s.hasPending node then
    let sa := updateAux O s (left node) st ((st + en) / 2) (st : Int) (en : Int)
      (s.pending node)
    let sb := updateAux O sa (right node) ((st + en) / 2 + 1) en (st : Int) (en : Int)
      (sa.pending node)
    { sb with hasPending := setF sb.hasPending node false }
  else s

/-- Fuel-indexed form of the private member `query(node, st, end, i, j)`,
returning the aggregate together with the mutated state (the C++ member
mutates the object through `applyPending`). -/
def queryGo (O : SegOps Node Op) :
    Nat → SegState Node Op → Nat → Nat → Nat → Int → Int → Node × SegState Node Op
  | 0, s, _, _, _, _, _ => (O.init, s)
  | fuel+1, s, node, st, en, i, j =>
    if j < (st : Int) ∨ (en : Int) < i then (O.init, s)
    else if i ≤ (st : Int) ∧ (en : Int) ≤ j then (s.tree node, s)
    else
      let m := (st + en) / 2
      let s1 := applyPending O s node st en
      let p1 := queryGo O fuel s1 (left node) st m i j
      let p2 := queryGo O fuel p1.2 (right node) (m+1) en i j
      (O.join p1.1 p2.1, p2.2)

/-- The private member `query(node, st, end, i, j)`. -/
def queryAux (O : SegOps Node Op) (s : SegState Node Op) (node st en : Nat)
    (i j : Int) : Node × SegState Node Op :=
  queryGo O (en - st + 1) s node st en i j

/-- Fuel-indexed form of the private member `build(arr, node, st, end)`. -/
def buildGo (O : SegOps Node Op) (arr : Nat → Int) :
    Nat → SegState Node Op → Nat → Nat → Nat → SegState Node Op
  | 0, s, _, _, _ => s
  | fuel+1, s, node, st, en =>
    if st = en then { s with tree := setF s.tree node (O.leaf st (arr st)) }
    else
      let m := (st + en) / 2
      let s1 := buildGo O arr fuel s (left node) st m
      let s2 := buildGo O arr fuel s1 (right node) (m+1) en
      { s2 with tree := setF s2.tree node (O.join (s2.tree (left node)) (s2.tree (right node))) }

/-- The private member `build(arr, node, st, end)`. -/
def buildAux (O : SegOps Node Op) (arr : Nat → Int) (s : SegState Node Op)
    (node st en : Nat) : SegState Node Op :=
  buildGo O arr (en - st + 1) s node st en

/-- The constructor `SegTree(n)`: `size = n` and the three arenas filled
with default-constructed values (`vector::resize`). -/
def segInit (O : SegOps Node Op) (n : Nat) : SegState Node Op :=
  ⟨n, fun _ => O.init, fun _ => false, fun _ => O.opInit⟩

/-- The public member `build(arr)`. -/
def buildPub (O : SegOps Node Op) (arr : Nat → Int) (s : SegState Node Op) :
    SegState Node Op :=
  buildAux O arr s 1 0 (s.size - 1)

/-- The constructor `SegTree(n, arr)`. -/
def segMake (O : SegOps Node Op) (n : Nat) (arr : Nat → Int) : SegState Node Op :=
  buildPub O arr (segInit O n)

/-- The public member `query(i, j)`. -/
def queryPub (O : SegOps Node Op) (s : SegState Node Op) (i j : Int) :
    Node × SegState Node Op :=
  queryAux O s 1 0 (s.size - 1) i j

/-- The public member `update(i, j, op)`. -/
def updatePub (O : SegOps Node Op) (s : SegState Node Op) (i j : Int) (op : Op) :
    SegState Node Op :=
  updateAux O s 1 0 (s.size - 1) i j op

/-! ### Recursion equations

The fuel argument of `updateGo`, `queryGo` and `buildGo` is irrelevant once
it exceeds the range length, so the wrappers `updateAux`, `queryAux` and
`buildAux` satisfy exactly the recursion equations of the C++ members. -/

theorem branch_lt {st en : Nat} {i j : Int}
    (hdis : ¬(j < (st : Int) ∨ (en : Int) < i))
    (hcon : ¬(i ≤ (st : Int) ∧ (en : Int) ≤ j)) : st < en := by
  push_neg at hdis hcon
  omega

theorem updateGo_fuel (O : SegOps Node Op) :
    ∀ (d f1 f2 : Nat) (s : SegState Node Op) (node st en : Nat) (i j : Int) (op : Op),
      en - st < d → en - st < f1 → en - st < f2 →
      updateGo O f1 s node st en i j op = updateGo O f2 s node st en i j op := by
  intro d
  induction d with
  | zero => intro f1 f2 s node st en i j op hd _ _; omega
  | succ d ih =>
    intro f1 f2 s node st en i j op hd h1 h2
    obtain ⟨a, rfl⟩ : ∃ a, f1 = a + 1 := ⟨f1 - 1, by omega⟩
    obtain ⟨b, rfl⟩ : ∃ b, f2 = b + 1 := ⟨f2 - 1, by omega⟩
    simp only [updateGo]
    by_cases hdis : j < (st : Int) ∨ (en : Int) < i
    · simp [hdis]
    · simp only [if_neg hdis]
      by_cases hleaf : st = en
      · simp [hleaf]
      · simp only [if_neg hleaf]
        by_cases hcon : i ≤ (st : Int) ∧ (en : Int) ≤ j
        · simp [hcon]
        · simp only [if_neg hcon]
          have hst : st < en := branch_lt hdis hcon
          have hmlt : (st + en) / 2 < en := by omega
          have hmge : st ≤ (st + en) / 2 := by omega
          have e1 : updateGo O a s (left node) st ((st + en) / 2) (st : Int) (en : Int)
                (s.pending node)
              = updateGo O b s (left node) st ((st + en) / 2) (st : Int) (en : Int)
                (s.pending node) := by
            exact ih a b s (left node) st ((st + en) / 2) (st : Int) (en : Int)
              (s.pending node) (by omega) (by omega) (by omega)
          rw [e1]
          have e2 : ∀ (t : SegState Node Op),
              updateGo O a t (right node) ((st + en) / 2 + 1) en (st : Int) (en : Int)
                (t.pending node)
              = updateGo O b t (right node) ((st + en) / 2 + 1) en (st : Int) (en : Int)
                (t.pending node) := by
            intro t
            exact ih a b t (right node) ((st + en) / 2 + 1) en (st : Int) (en : Int)
              (t.pending node) (by omega) (by omega) (by omega)
          rw [e2]
          have e3 : ∀ (t : SegState Node Op),
              updateGo O a t (left node) st ((st + en) / 2) i j op
              = updateGo O b t (left node) st ((st + en) / 2) i j op := by
            intro t
            exact ih a b t (left node) st ((st + en) / 2) i j op
              (by omega) (by omega) (by omega)
          rw [e3]
          have e4 : ∀ (t : SegState Node Op),
              updateGo O a t (right node) ((st + en) / 2 + 1) en i j op
              = updateGo O b t (right node) ((st + en) / 2 + 1) en i j op := by
            intro t
            exact ih a b t (right node) ((st + en) / 2 + 1) en i j op
              (by omega) (by omega) (by omega)
          rw [e4]

theorem updateGo_eq_updateAux (O : SegOps Node Op) (f : Nat)
    (s : SegState Node Op) (node st en : Nat) (i j : Int) (op : Op)
    (h : en - st < f) :
    updateGo O f s node st en i j op = updateAux O s node st en i j op :=
  updateGo_fuel O (en - st + 1) f (en - st + 1) s node st en i j op
    (by omega) h (by omega)

theorem updateAux_disjoint (O : SegOps Node Op) (s : SegState Node Op)
    (node st en : Nat) (i j : Int) (op : Op)
    (h : j < (st : Int) ∨ (en : Int) < i) :
    updateAux O s node st en i j op = s := by
  unfold updateAux
  simp only [updateGo, if_pos h]

theorem updateAux_leaf (O : SegOps Node Op) (s : SegState Node Op)
    (node st en : Nat) (i j : Int) (op : Op)
    (hdis : ¬(j < (st : Int) ∨ (en : Int) < i)) (hleaf : st = en) :
    updateAux O s node st en i j op
      = { s with tree := setF s.tree node (O.opApply op (s.tree node) st en) } := by
  unfold updateAux
  simp only [updateGo, if_neg hdis, if_pos hleaf]

theorem updateAux_contained (O : SegOps Node Op) (s : SegState Node Op)
    (node st en : Nat) (i j : Int) (op : Op)
    (hdis : ¬(j < (st : Int) ∨ (en : Int) < i)) (hleaf : st ≠ en)
    (hcon : i ≤ (st : Int) ∧ (en : Int) ≤ j) :
    updateAux O s node st en i j op
      = { s with
          tree := setF s.tree node (O.opApply op (s.tree node) st en),
          pending := setF s.pending node
            (if s.hasPending node then O.opMerge (s.pending node) op st en else op),
          hasPending := setF s.hasPending node true } := by
  unfold updateAux
  simp only [updateGo, if_neg hdis, if_neg hleaf, if_pos hcon]

theorem updateAux_split (O : SegOps Node Op) (s : SegState Node Op)
    (node st en : Nat) (i j : Int) (op : Op)
    (hdis : ¬(j < (st : Int) ∨ (en : Int) < i)) (hleaf : st ≠ en)
    (hcon : ¬(i ≤ (st : Int) ∧ (en : Int) ≤ j)) :
    updateAux O s node st en i j op
      = (let m := (st + en) / 2
         let s1 := applyPending O s node st en
         let s2 := if i ≤ (m : Int) then updateAux O s1 (left node) st m i j op else s1
         let s3 := if (m : Int) < j then updateAux O s2 (right node) (m+1) en i j op else s2
         { s3 with
           tree := setF s3.tree node (O.join (s3.tree (left node)) (s3.tree (right node))) }) := by
  have hst : st < en := branch_lt hdis hcon
  rw [show updateAux O s node st en i j op
      = updateGo O ((en - st) + 1) s node st en i j op from rfl]
  simp only [updateGo, if_neg hdis, if_neg hleaf, if_neg hcon, applyPending]
  have e1 : ∀ (t : SegState Node Op),
      updateGo O (en - st) t (left node) st ((st + en) / 2) (st : Int) (en : Int)
        (t.pending node)
      = updateAux O t (left node) st ((st + en) / 2) (st : Int) (en : Int)
        (t.pending node) := by
    intro t
    exact updateGo_eq_updateAux O (en - st) t (left node) st ((st + en) / 2)
      (st : Int) (en : Int) (t.pending node) (by omega)
  rw [e1]
  have e2 : ∀ (t : SegState Node Op),
      updateGo O (en - st) t (right node) ((st + en) / 2 + 1) en (st : Int) (en : Int)
        (t.pending node)
      = updateAux O t (right node) ((st + en) / 2 + 1) en (st : Int) (en : Int)
        (t.pending node) := by
    intro t
    exact updateGo_eq_updateAux O (en - st) t (right node) ((st + en) / 2 + 1) en
      (st : Int) (en : Int) (t.pending node) (by omega)
  rw [e2]
  have e3 : ∀ (t : SegState Node Op),
      updateGo O (en - st) t (left node) st ((st + en) / 2) i j op
      = updateAux O t (left node) st ((st + en) / 2) i j op := by
    intro t
    exact updateGo_eq_updateAux O (en - st) t (left node) st ((st + en) / 2) i j op
      (by omega)
  rw [e3]
  have e4 : ∀ (t : SegState Node Op),
      updateGo O (en - st) t (right node) ((st + en) / 2 + 1) en i j op
      = updateAux O t (right node) ((st + en) / 2 + 1) en i j op := by
    intro t
    exact updateGo_eq_updateAux O (en - st) t (right node) ((st + en) / 2 + 1) en i j op
      (by omega)
  rw [e4]

theorem queryGo_fuel (O : SegOps Node Op) :
    ∀ (d f1 f2 : Nat) (s : SegState Node Op) (node st en : Nat) (i j : Int),
      en - st < d → en - st < f1 → en - st < f2 →
      queryGo O f1 s node st en i j = queryGo O f2 s node st en i j := by
  intro d
  induction d with
  | zero => intro f1 f2 s node st en i j hd _ _; omega
  | succ d ih =>
    intro f1 f2 s node st en i j hd h1 h2
    obtain ⟨a, rfl⟩ : ∃ a, f1 = a + 1 := ⟨f1 - 1, by omega⟩
    obtain ⟨b, rfl⟩ : ∃ b, f2 = b + 1 := ⟨f2 - 1, by omega⟩
    simp only [queryGo]
    by_cases hdis : j < (st : Int) ∨ (en : Int) < i
    · simp [hdis]
    · simp only [if_neg hdis]
      by_cases hcon : i ≤ (st : Int) ∧ (en : Int) ≤ j
      · simp [hcon]
      · simp only [if_neg hcon]
        have hst : st < en := branch_lt hdis hcon
        have e1 : queryGo O a (applyPending O s node st en) (left node) st ((st + en) / 2) i j
            = queryGo O b (applyPending O s node st en) (left node) st ((st + en) / 2) i j := by
          exact ih a b (applyPending O s node st en) (left node) st ((st + en) / 2) i j
            (by omega) (by omega) (by omega)
        rw [e1]
        have e2 : ∀ (t : SegState Node Op),
            queryGo O a t (right node) ((st + en) / 2 + 1) en i j
            = queryGo O b t (right node) ((st + en) / 2 + 1) en i j := by
          intro t
          exact ih a b t (right node) ((st + en) / 2 + 1) en i j
            (by omega) (by omega) (by omega)
        rw [e2]

theorem queryGo_eq_queryAux (O : SegOps Node Op) (f : Nat)
    (s : SegState Node Op) (node st en : Nat) (i j : Int)
    (h : en - st < f) :
    queryGo O f s node st en i j = queryAux O s node st en i j :=
  queryGo_fuel O (en - st + 1) f (en - st + 1) s node st en i j (by omega) h (by omega)

theorem queryAux_disjoint (O : SegOps Node Op) (s : SegState Node Op)
    (node st en : Nat) (i j : Int)
    (h : j < (st : Int) ∨ (en : Int) < i) :
    queryAux O s node st en i j = (O.init, s) := by
  unfold queryAux
  simp only [queryGo, if_pos h]

theorem queryAux_contained (O : SegOps Node Op) (s : SegState Node Op)
    (node st en : Nat) (i j : Int)
    (hdis : ¬(j < (st : Int) ∨ (en : Int) < i))
    (hcon : i ≤ (st : Int) ∧ (en : Int) ≤ j) :
    queryAux O s node st en i j = (s.tree node, s) := by
  unfold queryAux
  simp only [queryGo, if_neg hdis, if_pos hcon]

theorem queryAux_split (O : SegOps Node Op) (s : SegState Node Op)
    (node st en : Nat) (i j : Int)
    (hdis : ¬(j < (st : Int) ∨ (en : Int) < i))
    (hcon : ¬(i ≤ (st : Int) ∧ (en : Int) ≤ j)) :
    queryAux O s node st en i j
      = (let m := (st + en) / 2
         let s1 := applyPending O s node st en
         let p1 := queryAux O s1 (left node) st m i j
         let p2 := queryAux O p1.2 (right node) (m+1) en i j
         (O.join p1.1 p2.1, p2.2)) := by
  have hst : st < en := branch_lt hdis hcon
  rw [show queryAux O s node st en i j
      = queryGo O ((en - st) + 1) s node st en i j from rfl]
  simp only [queryGo, if_neg hdis, if_neg hcon]
  have e1 : ∀ (t : SegState Node Op),
      queryGo O (en - st) t (left node) st ((st + en) / 2) i j
      = queryAux O t (left node) st ((st + en) / 2) i j := by
    intro t
    exact queryGo_eq_queryAux O (en - st) t (left node) st ((st + en) / 2) i j (by omega)
  rw [e1]
  have e2 : ∀ (t : SegState Node Op),
      queryGo O (en - st) t (right node) ((st + en) / 2 + 1) en i j
      = queryAux O t (right node) ((st + en) / 2 + 1) en i j := by
    intro t
    exact queryGo_eq_queryAux O (en - st) t (right node) ((st + en) / 2 + 1) en i j (by omega)
  rw [e2]

theorem buildGo_fuel (O : SegOps Node Op) (arr : Nat → Int) :
    ∀ (d f1 f2 : Nat) (s : SegState Node Op) (node st en : Nat),
      st ≤ en → en - st < d → en - st < f1 → en - st < f2 →
      buildGo O arr f1 s node st en = buildGo O arr f2 s node st en := by
  intro d
  induction d with
  | zero => intro f1 f2 s node st en _ hd _ _; omega
  | succ d ih =>
    intro f1 f2 s node st en hle hd h1 h2
    obtain ⟨a, rfl⟩ : ∃ a, f1 = a + 1 := ⟨f1 - 1, by omega⟩
    obtain ⟨b, rfl⟩ : ∃ b, f2 = b + 1 := ⟨f2 - 1, by omega⟩
    simp only [buildGo]
    by_cases hleaf : st = en
    · simp [hleaf]
    · simp only [if_neg hleaf]
      have hst : st < en := by omega
      have e1 : buildGo O arr a s (left node) st ((st + en) / 2)
          = buildGo O arr b s (left node) st ((st + en) / 2) := by
        exact ih a b s (left node) st ((st + en) / 2) (by omega) (by omega) (by omega)
          (by omega)
      rw [e1]
      have e2 : ∀ (t : SegState Node Op),
          buildGo O arr a t (right node) ((st + en) / 2 + 1) en
          = buildGo O arr b t (right node) ((st + en) / 2 + 1) en := by
        intro t
        exact ih a b t (right node) ((st + en) / 2 + 1) en (by omega) (by omega) (by omega)
          (by omega)
      rw [e2]

theorem buildGo_eq_buildAux (O : SegOps Node Op) (arr : Nat → Int) (f : Nat)
    (s : SegState Node Op) (node st en : Nat) (hle : st ≤ en) (h : en - st < f) :
    buildGo O arr f s node st en = buildAux O arr s node st en :=
  buildGo_fuel O arr (en - st + 1) f (en - st + 1) s node st en hle (by omega) h (by omega)

theorem buildAux_leaf (O : SegOps Node Op) (arr : Nat → Int) (s : SegState Node Op)
    (node st en : Nat) (hleaf : st = en) :
    buildAux O arr s node st en
      = { s with tree := setF s.tree node (O.leaf st (arr st)) } := by
  unfold buildAux
  simp only [buildGo, if_pos hleaf]

theorem buildAux_node (O : SegOps Node Op) (arr : Nat → Int) (s : SegState Node Op)
    (node st en : Nat) (hst : st < en) :
    buildAux O arr s node st en
      = (let m := (st + en) / 2
         let s1 := buildAux O arr s (left node) st m
         let s2 := buildAux O arr s1 (right node) (m+1) en
         { s2 with
           tree := setF s2.tree node (O.join (s2.tree (left node)) (s2.tree (right node))) }) := by
  rw [show buildAux O arr s node st en
      = buildGo O arr ((en - st) + 1) s node st en from rfl]
  simp only [buildGo, if_neg (by omega : ¬ st = en)]
  have e1 : ∀ (t : SegState Node Op),
      buildGo O arr (en - st) t (left node) st ((st + en) / 2)
      = buildAux O arr t (left node) st ((st + en) / 2) := by
    intro t
    exact buildGo_eq_buildAux O arr (en - st) t (left node) st ((st + en) / 2)
      (by omega) (by omega)
  rw [e1]
  have e2 : ∀ (t : SegState Node Op),
      buildGo O arr (en - st) t (right node) ((st + en) / 2 + 1) en
      = buildAux O arr t (right node) ((st + en) / 2 + 1) en := by
    intro t
    exact buildGo_eq_buildAux O arr (en - st) t (right node) ((st + en) / 2 + 1) en
      (by omega) (by omega)
  rw [e2]

/-! ### Subtree index sets and frame infrastructure

`inSub v k` says that arena index `k` lies in the implicit subtree rooted at
index `v` under the child arithmetic `left v = 2 v`, `right v = 2 v + 1`:
equivalently, repeatedly halving `k` reaches `v`. -/

def inSub (v k : Nat) : Prop := ∃ d, k / 2 ^ d = v

theorem inSub_refl (v : Nat) : inSub v v := ⟨0, by simp⟩

theorem inSub_of_left {v k : Nat} (h : inSub (left v) k) : inSub v k := by
  obtain ⟨d, hd⟩ := h
  refine ⟨d + 1, ?_⟩
  rw [pow_succ, ← Nat.div_div_eq_div_mul, hd]
  simp only [left]
  omega

theorem inSub_of_right {v k : Nat} (h : inSub (right v) k) : inSub v k := by
  obtain ⟨d, hd⟩ := h
  refine ⟨d + 1, ?_⟩
  rw [pow_succ, ← Nat.div_div_eq_div_mul, hd]
  simp only [right]
  omega

theorem inSub_le {v k : Nat} (h : inSub v k) : v ≤ k := by
  obtain ⟨d, hd⟩ := h
  calc v = k / 2 ^ d := hd.symm
  _ ≤ k := Nat.div_le_self _ _

theorem not_inSub_left_self {v : Nat} (hv : 1 ≤ v) : ¬ inSub (left v) v := by
  intro h
  have := inSub_le h
  simp [left] at this
  omega

theorem not_inSub_right_self {v : Nat} (hv : 1 ≤ v) : ¬ inSub (right v) v := by
  intro h
  have := inSub_le h
  simp [right] at this
  omega

theorem inSub_left_right_disjoint {v k : Nat} (hv : 1 ≤ v)
    (hl : inSub (left v) k) (hr : inSub (right v) k) : False := by
  obtain ⟨d, hd⟩ := hl
  obtain ⟨e, he⟩ := hr
  simp only [left] at hd
  simp only [right] at he
  rcases Nat.le_total d e with hde | hed
  · obtain ⟨c, rfl⟩ : ∃ c, e = d + c := ⟨e - d, by omega⟩
    rw [pow_add, ← Nat.div_div_eq_div_mul, hd] at he
    rcases Nat.eq_zero_or_pos c with rfl | hc
    · simp only [pow_zero, Nat.div_one] at he
      omega
    · have h2 : (2 : Nat) ≤ 2 ^ c := by
        calc (2 : Nat) = 2 ^ 1 := by norm_num
        _ ≤ 2 ^ c := Nat.pow_le_pow_right (by norm_num) hc
      have : 2 * v / 2 ^ c ≤ 2 * v / 2 := Nat.div_le_div_left h2 (by norm_num)
      rw [he] at this
      omega
  · obtain ⟨c, rfl⟩ : ∃ c, d = e + c := ⟨d - e, by omega⟩
    rw [pow_add, ← Nat.div_div_eq_div_mul, he] at hd
    rcases Nat.eq_zero_or_pos c with rfl | hc
    · simp only [pow_zero, Nat.div_one] at hd
      omega
    · have h2 : (2 : Nat) ≤ 2 ^ c := by
        calc (2 : Nat) = 2 ^ 1 := by norm_num
        _ ≤ 2 ^ c := Nat.pow_le_pow_right (by norm_num) hc
      have : (2 * v + 1) / 2 ^ c ≤ (2 * v + 1) / 2 := Nat.div_le_div_left h2 (by norm_num)
      rw [hd] at this
      omega

theorem ne_of_not_inSub {v k : Nat} (h : ¬ inSub v k) : k ≠ v := by
  intro hk
  exact h (hk ▸ inSub_refl v)

/-- Two states agree at arena index `k` on all three arenas. -/
def agreeAt (s t : SegState Node Op) (k : Nat) : Prop :=
  s.tree k = t.tree k ∧ s.hasPending k = t.hasPending k ∧ s.pending k = t.pending k

theorem agreeAt_refl (s : SegState Node Op) (k : Nat) : agreeAt s s k :=
  ⟨rfl, rfl, rfl⟩

theorem agreeAt_trans {s t u : SegState Node Op} {k : Nat}
    (h1 : agreeAt s t k) (h2 : agreeAt t u k) : agreeAt s u k :=
  ⟨h1.1.trans h2.1, h1.2.1.trans h2.2.1, h1.2.2.trans h2.2.2⟩

theorem agreeAt_symm {s t : SegState Node Op} {k : Nat}
    (h : agreeAt s t k) : agreeAt t s k :=
  ⟨h.1.symm, h.2.1.symm, h.2.2.symm⟩

/-! ### Canonical aggregates of an abstract element array

`rangeAgg` folds an abstract element array over `[st, en]` following exactly
the implicit halving partition used by the tree; `lineAgg` folds it linearly
from the left.  Under associativity of `join` the two coincide. -/

/-- Aggregate of the elements of `f` over `[st, en]`, shaped by the implicit
halving partition of the tree (for `en ≤ st` it degenerates to the single
leaf at `st`). -/
def rangeAgg (O : SegOps Node Op) (f : Nat → Int) (st en : Nat) : Node :=
  if h : en ≤ st then O.leaf st (f st)
  else O.join (rangeAgg O f st ((st + en) / 2)) (rangeAgg O f ((st + en) / 2 + 1) en)
termination_by en - st
decreasing_by
  all_goals omega

theorem rangeAgg_leaf (O : SegOps Node Op) (f : Nat → Int) (st en : Nat)
    (h : en ≤ st) : rangeAgg O f st en = O.leaf st (f st) := by
  rw [rangeAgg]
  simp [h]

theorem rangeAgg_node (O : SegOps Node Op) (f : Nat → Int) (st en : Nat)
    (h : st < en) :
    rangeAgg O f st en
      = O.join (rangeAgg O f st ((st + en) / 2)) (rangeAgg O f ((st + en) / 2 + 1) en) := by
  rw [rangeAgg]
  simp [show ¬ en ≤ st by omega]

/-- Left-to-right linear aggregate of the elements of `f` over `[a, b]`. -/
def lineAgg (O : SegOps Node Op) (f : Nat → Int) (a b : Nat) : Node :=
  if h : b ≤ a then O.leaf a (f a)
  else O.join (lineAgg O f a (b - 1)) (O.leaf b (f b))
termination_by b - a
decreasing_by
  all_goals omega

theorem lineAgg_single (O : SegOps Node Op) (f : Nat → Int) (a b : Nat)
    (h : b ≤ a) : lineAgg O f a b = O.leaf a (f a) := by
  rw [lineAgg]
  simp [h]

theorem lineAgg_step (O : SegOps Node Op) (f : Nat → Int) (a b : Nat)
    (h : a < b) :
    lineAgg O f a b = O.join (lineAgg O f a (b - 1)) (O.leaf b (f b)) := by
  rw [lineAgg]
  simp [show ¬ b ≤ a by omega]

/-- Elementwise effect of an update operation over the interval `[i, j]`. -/
def applyOn (ea : Op → Int → Int) (op : Op) (i j : Int) (f : Nat → Int) :
    Nat → Int :=
  fun k => if i ≤ (k : Int) ∧ (k : Int) ≤ j then ea op (f k) else f k

/-- Capability contract required from the caller-supplied `Node` and `Op`
parameters (spec sections 3 and 6): `join` is associative with the
default-constructed node as identity, `Op::apply` acts on aggregates as the
pointwise element transformation `ea` (it maps single-element aggregates to
single-element aggregates and distributes over `join` with the ranges split
accordingly), and `Op::merge` composes as "this, then the argument". -/
structure SegLaws (O : SegOps Node Op) (ea : Op → Int → Int) : Prop where
  join_assoc : ∀ a b c, O.join (O.join a b) c = O.join a (O.join b c)
  join_init_left : ∀ a, O.join O.init a = a
  join_init_right : ∀ a, O.join a O.init = a
  apply_join : ∀ op a b lo mid hi, lo ≤ mid → mid < hi →
    O.opApply op (O.join a b) lo hi = O.join (O.opApply op a lo mid) (O.opApply op b (mid + 1) hi)
  apply_leaf : ∀ op k v, O.opApply op (O.leaf k v) k k = O.leaf k (ea op v)
  merge_elem : ∀ p q lo hi v, ea (O.opMerge p q lo hi) v = ea q (ea p v)

/-! ### The representation invariant

`Repr O ea s f v st en` says that the subtree of the arena rooted at index
`v`, covering `[st, en]`, correctly represents the abstract element array
`f`: the cached aggregate at `v` is the aggregate of `f` over `[st, en]`
(so it already includes every update folded into `v`'s own pending slot),
and below `v` the children represent the array as it was before `v`'s
pending update, if any. -/
def Repr (O : SegOps Node Op) (ea : Op → Int → Int) (s : SegState Node Op)
    (f : Nat → Int) (v st en : Nat) : Prop :=
  s.tree v = rangeAgg O f st en ∧
  (if h : st < en then
    ∃ g : Nat → Int,
      (∀ k, st ≤ k → k ≤ en →
        f k = (if s.hasPending v then ea (s.pending v) (g k) else g k)) ∧
      Repr O ea s g (left v) st ((st + en) / 2) ∧
      Repr O ea s g (right v) ((st + en) / 2 + 1) en
   else True)
termination_by en - st
decreasing_by
  all_goals omega

theorem Repr_leaf_iff (O : SegOps Node Op) (ea : Op → Int → Int)
    (s : SegState Node Op) (f : Nat → Int) (v st en : Nat) (h : en ≤ st) :
    Repr O ea s f v st en ↔ s.tree v = rangeAgg O f st en := by
  rw [Repr]
  simp [show ¬ st < en by omega]

theorem Repr_node_iff (O : SegOps Node Op) (ea : Op → Int → Int)
    (s : SegState Node Op) (f : Nat → Int) (v st en : Nat) (h : st < en) :
    Repr O ea s f v st en ↔
      (s.tree v = rangeAgg O f st en ∧
       ∃ g : Nat → Int,
        (∀ k, st ≤ k → k ≤ en →
          f k = (if s.hasPending v then ea (s.pending v) (g k) else g k)) ∧
        Repr O ea s g (left v) st ((st + en) / 2) ∧
        Repr O ea s g (right v) ((st + en) / 2 + 1) en) := by
  rw [Repr]
  simp [h]

theorem rangeAgg_congr (O : SegOps Node Op) (f f' : Nat → Int) :
    ∀ (d st en : Nat), en - st < d → st ≤ en →
      (∀ k, st ≤ k → k ≤ en → f k = f' k) →
      rangeAgg O f st en = rangeAgg O f' st en := by
  intro d
  induction d with
  | zero => intro st en hd _ _; omega
  | succ d ih =>
    intro st en hd hle hf
    by_cases h : en ≤ st
    · rw [rangeAgg_leaf O f st en h, rangeAgg_leaf O f' st en h,
        hf st (le_refl st) hle]
    · have hst : st < en := by omega
      rw [rangeAgg_node O f st en hst, rangeAgg_node O f' st en hst]
      rw [ih st ((st + en) / 2) (by omega) (by omega)
        (fun k h1 h2 => hf k h1 (by omega))]
      rw [ih ((st + en) / 2 + 1) en (by omega) (by omega)
        (fun k h1 h2 => hf k (by omega) h2)]

/-- The invariant only depends on the restriction of the abstract array to
the covered interval. -/
theorem reprCongr (O : SegOps Node Op) (ea : Op → Int → Int)
    (s : SegState Node Op) (f f' : Nat → Int) (v st en : Nat)
    (hle : st ≤ en)
    (hf : ∀ k, st ≤ k → k ≤ en → f k = f' k)
    (h : Repr O ea s f v st en) : Repr O ea s f' v st en := by
  by_cases hst : st < en
  · rw [Repr_node_iff O ea s f v st en hst] at h
    rw [Repr_node_iff O ea s f' v st en hst]
    obtain ⟨h1, g, hg, hgl, hgr⟩ := h
    refine ⟨?_, g, ?_, hgl, hgr⟩
    · rw [← rangeAgg_congr O f f' (en - st + 1) st en (by omega) hle hf]
      exact h1
    · intro k hk1 hk2
      rw [← hf k hk1 hk2]
      exact hg k hk1 hk2
  · have hen : en ≤ st := by omega
    rw [Repr_leaf_iff O ea s f v st en hen] at h
    rw [Repr_leaf_iff O ea s f' v st en hen]
    rw [← rangeAgg_congr O f f' (en - st + 1) st en (by omega) hle hf]
    exact h

/-- The invariant only depends on the state at indices inside the subtree. -/
theorem reprExt (O : SegOps Node Op) (ea : Op → Int → Int) :
    ∀ (d : Nat) (s t : SegState Node Op) (f : Nat → Int) (v st en : Nat),
      en - st < d →
      (∀ k, inSub v k → agreeAt s t k) →
      Repr O ea s f v st en → Repr O ea t f v st en := by
  intro d
  induction d with
  | zero => intro s t f v st en hd _ _; omega
  | succ d ih =>
    intro s t f v st en hd hagree h
    have hv := hagree v (inSub_refl v)
    by_cases hst : st < en
    · rw [Repr_node_iff O ea s f v st en hst] at h
      rw [Repr_node_iff O ea t f v st en hst]
      obtain ⟨h1, g, hg, hgl, hgr⟩ := h
      refine ⟨hv.1 ▸ h1, g, ?_, ?_, ?_⟩
      · intro k hk1 hk2
        rw [← hv.2.1, ← hv.2.2]
        exact hg k hk1 hk2
      · exact ih s t g (left v) st ((st + en) / 2) (by omega)
          (fun k hk => hagree k (inSub_of_left hk)) hgl
      · exact ih s t g (right v) ((st + en) / 2 + 1) en (by omega)
          (fun k hk => hagree k (inSub_of_right hk)) hgr
    · have hen : en ≤ st := by omega
      rw [Repr_leaf_iff O ea s f v st en hen] at h
      rw [Repr_leaf_iff O ea t f v st en hen]
      exact hv.1 ▸ h

/-! ### Frame lemmas: each operation only writes inside its subtree -/

theorem updateAux_untouched (O : SegOps Node Op) :
    ∀ (d : Nat) (s : SegState Node Op) (node st en : Nat) (i j : Int) (op : Op),
      en - st < d →
      (updateAux O s node st en i j op).size = s.size ∧
      (∀ k, ¬ inSub node k → agreeAt (updateAux O s node st en i j op) s k) := by
  intro d
  induction d with
  | zero => intro s node st en i j op hd; omega
  | succ d ih =>
    intro s node st en i j op hd
    by_cases hdis : j < (st : Int) ∨ (en : Int) < i
    · rw [updateAux_disjoint O s node st en i j op hdis]
      exact ⟨rfl, fun k _ => agreeAt_refl s k⟩
    · by_cases hleaf : st = en
      · rw [updateAux_leaf O s node st en i j op hdis hleaf]
        refine ⟨rfl, fun k hk => ⟨?_, rfl, rfl⟩⟩
        exact setF_other s.tree node k _ (ne_of_not_inSub hk)
      · by_cases hcon : i ≤ (st : Int) ∧ (en : Int) ≤ j
        · rw [updateAux_contained O s node st en i j op hdis hleaf hcon]
          refine ⟨rfl, fun k hk => ⟨?_, ?_, ?_⟩⟩
          · exact setF_other s.tree node k _ (ne_of_not_inSub hk)
          · exact setF_other s.hasPending node k _ (ne_of_not_inSub hk)
          · exact setF_other s.pending node k _ (ne_of_not_inSub hk)
        · have hst : st < en := branch_lt hdis hcon
          rw [updateAux_split O s node st en i j op hdis hleaf hcon]
          have hs1 : (applyPending O s node st en).size = s.size ∧
              (∀ k, ¬ inSub (left node) k → ¬ inSub (right node) k → k ≠ node →
                agreeAt (applyPending O s node st en) s k) := by
            unfold applyPending
            by_cases hp : s.hasPending node
            · simp only [hp, if_true]
              obtain ⟨hsa_size, hsa_agree⟩ := ih s (left node) st ((st + en) / 2)
                (st : Int) (en : Int) (s.pending node) (by omega)
              obtain ⟨hsb_size, hsb_agree⟩ := ih
                (updateAux O s (left node) st ((st + en) / 2) (st : Int) (en : Int)
                  (s.pending node))
                (right node) ((st + en) / 2 + 1) en (st : Int) (en : Int)
                ((updateAux O s (left node) st ((st + en) / 2) (st : Int) (en : Int)
                  (s.pending node)).pending node) (by omega)
              constructor
              · rw [hsb_size, hsa_size]
              · intro k hkl hkr hkn
                have h1 := hsa_agree k hkl
                have h2 := hsb_agree k hkr
                have h3 := agreeAt_trans h2 h1
                exact ⟨h3.1, (setF_other _ node k _ hkn).trans h3.2.1, h3.2.2⟩
            · simp only [hp, if_false]
              exact ⟨rfl, fun k _ _ _ => agreeAt_refl s k⟩
          have hs2 : ∀ (t : SegState Node Op),
              t.size = s.size → (∀ k, ¬ inSub node k → agreeAt t s k) →
              (if i ≤ (((st + en) / 2 : Nat) : Int)
               then updateAux O t (left node) st ((st + en) / 2) i j op else t).size = s.size ∧
              (∀ k, ¬ inSub node k →
                agreeAt (if i ≤ (((st + en) / 2 : Nat) : Int)
                  then updateAux O t (left node) st ((st + en) / 2) i j op else t) s k) := by
            intro t ht hta
            by_cases hi : i ≤ (((st + en) / 2 : Nat) : Int)
            · simp only [hi, if_true]
              obtain ⟨h1, h2⟩ := ih t (left node) st ((st + en) / 2) i j op (by omega)
              refine ⟨h1.trans ht, fun k hk => ?_⟩
              exact agreeAt_trans (h2 k (fun hs => hk (inSub_of_left hs))) (hta k hk)
            · simp only [hi, if_false]
              exact ⟨ht, hta⟩
          have hs3 : ∀ (t : SegState Node Op),
              t.size = s.size → (∀ k, ¬ inSub node k → agreeAt t s k) →
              (if (((st + en) / 2 : Nat) : Int) < j
               then updateAux O t (right node) ((st + en) / 2 + 1) en i j op else t).size
                = s.size ∧
              (∀ k, ¬ inSub node k →
                agreeAt (if (((st + en) / 2 : Nat) : Int) < j
                  then updateAux O t (right node) ((st + en) / 2 + 1) en i j op else t) s k) := by
            intro t ht hta
            by_cases hj : (((st + en) / 2 : Nat) : Int) < j
            · simp only [hj, if_true]
              obtain ⟨h1, h2⟩ := ih t (right node) ((st + en) / 2 + 1) en i j op (by omega)
              refine ⟨h1.trans ht, fun k hk => ?_⟩
              exact agreeAt_trans (h2 k (fun hs => hk (inSub_of_right hs))) (hta k hk)
            · simp only [hj, if_false]
              exact ⟨ht, hta⟩
          have h1 := hs1
          have ha : ∀ k, ¬ inSub node k → agreeAt (applyPending O s node st en) s k := by
            intro k hk
            exact h1.2 k (fun hs => hk (inSub_of_left hs)) (fun hs => hk (inSub_of_right hs))
              (ne_of_not_inSub hk)
          obtain ⟨h2size, h2agree⟩ := hs2 (applyPending O s node st en) h1.1 ha
          obtain ⟨h3size, h3agree⟩ := hs3 _ h2size h2agree
          refine ⟨h3size, fun k hk => ?_⟩
          have h4 := h3agree k hk
          exact ⟨(setF_other _ node k _ (ne_of_not_inSub hk)).trans h4.1, h4.2.1, h4.2.2⟩

theorem updateAux_size (O : SegOps Node Op) (s : SegState Node Op)
    (node st en : Nat) (i j : Int) (op : Op) :
    (updateAux O s node st en i j op).size = s.size :=
  (updateAux_untouched O (en - st + 1) s node st en i j op (by omega)).1

theorem updateAux_agree (O : SegOps Node Op) (s : SegState Node Op)
    (node st en : Nat) (i j : Int) (op : Op) (k : Nat) (hk : ¬ inSub node k) :
    agreeAt (updateAux O s node st en i j op) s k :=
  (updateAux_untouched O (en - st + 1) s node st en i j op (by omega)).2 k hk

/-- What `applyPending` leaves alone: everything outside the two child
subtrees except the cleared flag at `node` itself; moreover the flag at
`node` is false afterwards. -/
theorem applyPending_untouched (O : SegOps Node Op) (s : SegState Node Op)
    (node st en : Nat) :
    (applyPending O s node st en).size = s.size ∧
    (applyPending O s node st en).hasPending node = false ∧
    (∀ k, ¬ inSub (left node) k → ¬ inSub (right node) k →
      (applyPending O s node st en).tree k = s.tree k ∧
      (applyPending O s node st en).pending k = s.pending k ∧
      (k ≠ node → (applyPending O s node st en).hasPending k = s.hasPending k)) := by
  unfold applyPending
  by_cases hp : s.hasPending node
  · simp only [hp, if_true]
    have hsa := updateAux_untouched O (((st + en) / 2) - st + 1) s (left node) st
      ((st + en) / 2) (st : Int) (en : Int) (s.pending node) (by omega)
    have hsb := updateAux_untouched O (en - ((st + en) / 2 + 1) + 1)
      (updateAux O s (left node) st ((st + en) / 2) (st : Int) (en : Int) (s.pending node))
      (right node) ((st + en) / 2 + 1) en (st : Int) (en : Int)
      ((updateAux O s (left node) st ((st + en) / 2) (st : Int) (en : Int)
        (s.pending node)).pending node) (by omega)
    refine ⟨by rw [hsb.1, hsa.1], by simp [setF], fun k hkl hkr => ?_⟩
    have h1 := hsa.2 k hkl
    have h2 := hsb.2 k hkr
    have h3 := agreeAt_trans h2 h1
    exact ⟨h3.1, h3.2.2, fun hkn => (setF_other _ node k _ hkn).trans h3.2.1⟩
  · simp only [hp, if_false]
    exact ⟨rfl, Bool.eq_false_iff.mpr (fun h => hp (by simpa using h)), fun k _ _ =>
      ⟨rfl, rfl, fun _ => rfl⟩⟩

theorem queryAux_untouched (O : SegOps Node Op) :
    ∀ (d : Nat) (s : SegState Node Op) (node st en : Nat) (i j : Int),
      en - st < d → 1 ≤ node →
      (queryAux O s node st en i j).2.size = s.size ∧
      (∀ k, ¬ inSub node k → agreeAt (queryAux O s node st en i j).2 s k) := by
  intro d
  induction d with
  | zero => intro s node st en i j hd _; omega
  | succ d ih =>
    intro s node st en i j hd hv
    by_cases hdis : j < (st : Int) ∨ (en : Int) < i
    · rw [queryAux_disjoint O s node st en i j hdis]
      exact ⟨rfl, fun k _ => agreeAt_refl s k⟩
    · by_cases hcon : i ≤ (st : Int) ∧ (en : Int) ≤ j
      · rw [queryAux_contained O s node st en i j hdis hcon]
        exact ⟨rfl, fun k _ => agreeAt_refl s k⟩
      · have hst : st < en := branch_lt hdis hcon
        rw [queryAux_split O s node st en i j hdis hcon]
        have hap := applyPending_untouched O s node st en
        have hapa : ∀ k, ¬ inSub node k → agreeAt (applyPending O s node st en) s k := by
          intro k hk
          have h := hap.2.2 k (fun hs => hk (inSub_of_left hs)) (fun hs => hk (inSub_of_right hs))
          exact ⟨h.1, h.2.2 (ne_of_not_inSub hk), h.2.1⟩
        obtain ⟨hq1size, hq1agree⟩ := ih (applyPending O s node st en) (left node) st
          ((st + en) / 2) i j (by omega) (by simp [left]; omega)
        obtain ⟨hq2size, hq2agree⟩ := ih
          (queryAux O (applyPending O s node st en) (left node) st ((st + en) / 2) i j).2
          (right node) ((st + en) / 2 + 1) en i j (by omega) (by simp [right])
        refine ⟨by rw [hq2size, hq1size, hap.1], fun k hk => ?_⟩
        have a1 := hapa k hk
        have a2 := hq1agree k (fun hs => hk (inSub_of_left hs))
        have a3 := hq2agree k (fun hs => hk (inSub_of_right hs))
        exact agreeAt_trans a3 (agreeAt_trans a2 a1)

/-- What `build` leaves alone: the flag and pending arenas entirely, and the
aggregate arena outside the subtree of `node`. -/
theorem buildAux_untouched (O : SegOps Node Op) (arr : Nat → Int) :
    ∀ (d : Nat) (s : SegState Node Op) (node st en : Nat),
      en - st < d → st ≤ en →
      (buildAux O arr s node st en).size = s.size ∧
      (buildAux O arr s node st en).hasPending = s.hasPending ∧
      (buildAux O arr s node st en).pending = s.pending ∧
      (∀ k, ¬ inSub node k → (buildAux O arr s node st en).tree k = s.tree k) := by
  intro d
  induction d with
  | zero => intro s node st en hd _; omega
  | succ d ih =>
    intro s node st en hd hle
    by_cases hleaf : st = en
    · rw [buildAux_leaf O arr s node st en hleaf]
      exact ⟨rfl, rfl, rfl, fun k hk => setF_other s.tree node k _ (ne_of_not_inSub hk)⟩
    · have hst : st < en := by omega
      rw [buildAux_node O arr s node st en hst]
      obtain ⟨h1s, h1h, h1p, h1t⟩ := ih s (left node) st ((st + en) / 2) (by omega) (by omega)
      obtain ⟨h2s, h2h, h2p, h2t⟩ := ih (buildAux O arr s (left node) st ((st + en) / 2))
        (right node) ((st + en) / 2 + 1) en (by omega) (by omega)
      refine ⟨by rw [h2s, h1s], by rw [h2h, h1h], by rw [h2p, h1p], fun k hk => ?_⟩
      refine (setF_other _ node k _ (ne_of_not_inSub hk)).trans ?_
      rw [h2t k (fun hs => hk (inSub_of_right hs)), h1t k (fun hs => hk (inSub_of_left hs))]

/-! ### Aggregate algebra under the capability laws -/

theorem repr_tree (O : SegOps Node Op) (ea : Op → Int → Int)
    {s : SegState Node Op} {f : Nat → Int} {v st en : Nat}
    (h : Repr O ea s f v st en) : s.tree v = rangeAgg O f st en := by
  by_cases hst : st < en
  · exact ((Repr_node_iff O ea s f v st en hst).mp h).1
  · exact (Repr_leaf_iff O ea s f v st en (by omega)).mp h

theorem ne_node_of_inSub_left {v k : Nat} (hv : 1 ≤ v) (h : inSub (left v) k) :
    k ≠ v := by
  have := inSub_le h
  simp only [left] at this
  omega

theorem ne_node_of_inSub_right {v k : Nat} (hv : 1 ≤ v) (h : inSub (right v) k) :
    k ≠ v := by
  have := inSub_le h
  simp only [right] at this
  omega

theorem lineAgg_append (O : SegOps Node Op) (ea : Op → Int → Int)
    (L : SegLaws O ea) (f : Nat → Int) :
    ∀ (d a b c : Nat), c - b < d → a ≤ b → b < c →
      O.join (lineAgg O f a b) (lineAgg O f (b + 1) c) = lineAgg O f a c := by
  intro d
  induction d with
  | zero => intro a b c hd _ _; omega
  | succ d ih =>
    intro a b c hd hab hbc
    by_cases hc : c = b + 1
    · subst hc
      rw [lineAgg_single O f (b + 1) (b + 1) (le_refl _),
        lineAgg_step O f a (b + 1) (by omega)]
      simp
    · have hbc1 : b + 1 < c := by omega
      rw [lineAgg_step O f (b + 1) c hbc1, ← L.join_assoc,
        ih a b (c - 1) (by omega) hab (by omega),
        ← lineAgg_step O f a c (by omega)]

theorem rangeAgg_eq_lineAgg (O : SegOps Node Op) (ea : Op → Int → Int)
    (L : SegLaws O ea) (f : Nat → Int) :
    ∀ (d st en : Nat), en - st < d → st ≤ en →
      rangeAgg O f st en = lineAgg O f st en := by
  intro d
  induction d with
  | zero => intro st en hd _; omega
  | succ d ih =>
    intro st en hd hle
    by_cases h : en ≤ st
    · rw [rangeAgg_leaf O f st en h, lineAgg_single O f st en h]
    · have hst : st < en := by omega
      rw [rangeAgg_node O f st en hst,
        ih st ((st + en) / 2) (by omega) (by omega),
        ih ((st + en) / 2 + 1) en (by omega) (by omega)]
      exact lineAgg_append O ea L f (en - (st + en) / 2 + 1) st ((st + en) / 2) en
        (by omega) (by omega) (by omega)

theorem apply_lineAgg (O : SegOps Node Op) (ea : Op → Int → Int)
    (L : SegLaws O ea) (f : Nat → Int) (op : Op) :
    ∀ (d a b : Nat), b - a < d → a ≤ b →
      O.opApply op (lineAgg O f a b) a b = lineAgg O (fun k => ea op (f k)) a b := by
  intro d
  induction d with
  | zero => intro a b hd _; omega
  | succ d ih =>
    intro a b hd hab
    by_cases h : b ≤ a
    · have hba : a = b := by omega
      subst hba
      rw [lineAgg_single O f a a (le_refl _), lineAgg_single O _ a a (le_refl _)]
      exact L.apply_leaf op a (f a)
    · have hb : a < b := by omega
      rw [lineAgg_step O f a b hb, L.apply_join op _ _ a (b - 1) b (by omega) (by omega),
        ih a (b - 1) (by omega) (by omega)]
      rw [show b - 1 + 1 = b by omega]
      rw [L.apply_leaf op b (f b), ← lineAgg_step O _ a b hb]

theorem apply_rangeAgg (O : SegOps Node Op) (ea : Op → Int → Int)
    (L : SegLaws O ea) (f : Nat → Int) (op : Op) (st en : Nat) (hle : st ≤ en) :
    O.opApply op (rangeAgg O f st en) st en
      = rangeAgg O (fun k => ea op (f k)) st en := by
  rw [rangeAgg_eq_lineAgg O ea L f (en - st + 1) st en (by omega) hle,
    rangeAgg_eq_lineAgg O ea L (fun k => ea op (f k)) (en - st + 1) st en (by omega) hle]
  exact apply_lineAgg O ea L f op (en - st + 1) st en (by omega) hle

/-! ### Build correctness: construction establishes the invariant -/

theorem buildAux_repr (O : SegOps Node Op) (ea : Op → Int → Int) (arr : Nat → Int) :
    ∀ (d : Nat) (s : SegState Node Op) (node st en : Nat),
      en - st < d → st ≤ en → 1 ≤ node →
      (∀ k, inSub node k → s.hasPending k = false) →
      Repr O ea (buildAux O arr s node st en) arr node st en := by
  intro d
  induction d with
  | zero => intro s node st en hd _ _ _; omega
  | succ d ih =>
    intro s node st en hd hle hv hp
    by_cases hleaf : st = en
    · rw [buildAux_leaf O arr s node st en hleaf]
      rw [Repr_leaf_iff O ea _ arr node st en (by omega)]
      rw [rangeAgg_leaf O arr st en (by omega)]
      exact setF_same s.tree node _
    · have hst : st < en := by omega
      rw [buildAux_node O arr s node st en hst]
      obtain ⟨h2s, h2h, h2p, h2t⟩ := buildAux_untouched O arr (en - ((st + en) / 2 + 1) + 1)
        (buildAux O arr s (left node) st ((st + en) / 2))
        (right node) ((st + en) / 2 + 1) en (by omega) (by omega)
      obtain ⟨h1s, h1h, h1p, h1t⟩ := buildAux_untouched O arr ((st + en) / 2 - st + 1)
        s (left node) st ((st + en) / 2) (by omega) (by omega)
      have hrl : Repr O ea (buildAux O arr s (left node) st ((st + en) / 2)) arr
          (left node) st ((st + en) / 2) := by
        refine ih s (left node) st ((st + en) / 2) (by omega) (by omega)
          (by simp [left]; omega) ?_
        intro k hk
        exact hp k (inSub_of_left hk)
      have hrr : Repr O ea (buildAux O arr (buildAux O arr s (left node) st ((st + en) / 2))
          (right node) ((st + en) / 2 + 1) en) arr (right node) ((st + en) / 2 + 1) en := by
        refine ih _ (right node) ((st + en) / 2 + 1) en (by omega) (by omega)
          (by simp [right]) ?_
        intro k hk
        rw [h1h]
        exact hp k (inSub_of_right hk)
      have hrl2 : Repr O ea (buildAux O arr (buildAux O arr s (left node) st ((st + en) / 2))
          (right node) ((st + en) / 2 + 1) en) arr (left node) st ((st + en) / 2) := by
        refine reprExt O ea ((st + en) / 2 - st + 1) _ _ arr (left node) st ((st + en) / 2)
          (by omega) ?_ hrl
        intro k hk
        refine ⟨(h2t k ?_).symm, by rw [h2h], by rw [h2p]⟩
        intro hr
        exact inSub_left_right_disjoint hv hk hr
      set s2 := buildAux O arr (buildAux O arr s (left node) st ((st + en) / 2))
        (right node) ((st + en) / 2 + 1) en with hs2def
      show Repr O ea
        { s2 with tree := setF s2.tree node (O.join (s2.tree (left node)) (s2.tree (right node))) }
        arr node st en
      set s3 : SegState Node Op :=
        { s2 with tree := setF s2.tree node (O.join (s2.tree (left node)) (s2.tree (right node))) }
        with hs3def
      have h3t : s3.tree = setF s2.tree node (O.join (s2.tree (left node)) (s2.tree (right node))) :=
        rfl
      have h3h : s3.hasPending = s2.hasPending := rfl
      have h3p : s3.pending = s2.pending := rfl
      rw [Repr_node_iff O ea s3 arr node st en hst]
      constructor
      · rw [h3t, setF_same s2.tree node _]
        rw [repr_tree O ea hrl2, repr_tree O ea hrr]
        exact (rangeAgg_node O arr st en hst).symm
      · refine ⟨arr, ?_, ?_, ?_⟩
        · intro k hk1 hk2
          have hpn : s3.hasPending node = false := by
            rw [h3h, hs2def, h2h, h1h]
            exact hp node (inSub_refl node)
          rw [hpn]
          simp
        · refine reprExt O ea ((st + en) / 2 - st + 1) s2 s3 arr (left node) st ((st + en) / 2)
            (by omega) ?_ hrl2
          intro k hk
          refine ⟨?_, by rw [h3h], by rw [h3p]⟩
          rw [h3t, setF_other s2.tree node k _ (ne_node_of_inSub_left hv hk)]
        · refine reprExt O ea (en - ((st + en) / 2 + 1) + 1) s2 s3 arr (right node)
            ((st + en) / 2 + 1) en (by omega) ?_ hrr
          intro k hk
          refine ⟨?_, by rw [h3h], by rw [h3p]⟩
          rw [h3t, setF_other s2.tree node k _ (ne_node_of_inSub_right hv hk)]

/-- `SegTree(n, arr)` represents the seed array. -/
theorem segMake_repr (O : SegOps Node Op) (ea : Op → Int → Int) (n : Nat)
    (arr : Nat → Int) (hn : 1 ≤ n) :
    Repr O ea (segMake O n arr) arr 1 0 (n - 1) := by
  unfold segMake buildPub segInit
  exact buildAux_repr O ea arr (n - 1 + 1) _ 1 0 (n - 1) (by omega) (by omega) (le_refl 1)
    (fun k _ => rfl)

theorem segMake_size (O : SegOps Node Op) (n : Nat) (arr : Nat → Int) (hn : 1 ≤ n) :
    (segMake O n arr).size = n := by
  unfold segMake buildPub
  rw [(buildAux_untouched O arr ((segInit O n).size - 1 + 1) (segInit O n) 1 0
    ((segInit O n).size - 1) (by omega) (by simp [segInit])).1]
  rfl

/-! ### Update correctness -/

theorem applyOn_in (ea : Op → Int → Int) (op : Op) (i j : Int) (f : Nat → Int)
    (k : Nat) (h : i ≤ (k : Int) ∧ (k : Int) ≤ j) :
    applyOn ea op i j f k = ea op (f k) := by
  simp [applyOn, h]

theorem applyOn_notin (ea : Op → Int → Int) (op : Op) (i j : Int) (f : Nat → Int)
    (k : Nat) (h : ¬(i ≤ (k : Int) ∧ (k : Int) ≤ j)) :
    applyOn ea op i j f k = f k := by
  simp only [applyOn, if_neg h]

theorem repr_child_ext (O : SegOps Node Op) (ea : Op → Int → Int)
    (s s' : SegState Node Op) (g : Nat → Int) (w a b node : Nat)
    (hneq : ∀ k, inSub w k → k ≠ node)
    (ht : ∀ k, k ≠ node →
      s'.tree k = s.tree k ∧ s'.hasPending k = s.hasPending k ∧ s'.pending k = s.pending k)
    (h : Repr O ea s g w a b) : Repr O ea s' g w a b := by
  refine reprExt O ea (b - a + 1) s s' g w a b (by omega) ?_ h
  intro k hk
  obtain ⟨h1, h2, h3⟩ := ht k (hneq k hk)
  exact ⟨h1.symm, h2.symm, h3.symm⟩

theorem updateAux_repr (O : SegOps Node Op) (ea : Op → Int → Int) (L : SegLaws O ea) :
    ∀ (d : Nat) (s : SegState Node Op) (f : Nat → Int) (node st en : Nat)
      (i j : Int) (op : Op),
      en - st < d → st ≤ en → 1 ≤ node →
      Repr O ea s f node st en →
      Repr O ea (updateAux O s node st en i j op) (applyOn ea op i j f) node st en := by
  intro d
  induction d with
  | zero => intro s f node st en i j op hd _ _ _; omega
  | succ d ih =>
    intro s f node st en i j op hd hle hv hrepr
    by_cases hdis : j < (st : Int) ∨ (en : Int) < i
    · rw [updateAux_disjoint O s node st en i j op hdis]
      refine reprCongr O ea s f (applyOn ea op i j f) node st en hle ?_ hrepr
      intro k hk1 hk2
      rw [applyOn_notin ea op i j f k (by omega)]
    · by_cases hleaf : st = en
      · subst hleaf
        rw [updateAux_leaf O s node st st i j op hdis rfl]
        rw [Repr_leaf_iff O ea _ _ node st st (le_refl st)]
        have hin : i ≤ (st : Int) ∧ (st : Int) ≤ j := by
          push_neg at hdis
          omega
        show setF s.tree node (O.opApply op (s.tree node) st st) node
          = rangeAgg O (applyOn ea op i j f) st st
        rw [setF_same, repr_tree O ea hrepr, rangeAgg_leaf O f st st (le_refl st),
          rangeAgg_leaf O _ st st (le_refl st), L.apply_leaf op st (f st),
          applyOn_in ea op i j f st hin]
      · have hst : st < en := by omega
        by_cases hcon : i ≤ (st : Int) ∧ (en : Int) ≤ j
        · rw [updateAux_contained O s node st en i j op hdis hleaf hcon]
          rw [Repr_node_iff O ea s f node st en hst] at hrepr
          obtain ⟨ht, g, hg, hgl, hgr⟩ := hrepr
          set s' : SegState Node Op :=
            { s with
              tree := setF s.tree node (O.opApply op (s.tree node) st en),
              pending := setF s.pending node
                (if s.hasPending node then O.opMerge (s.pending node) op st en else op),
              hasPending := setF s.hasPending node true } with hs'def
          have hit : s'.tree = setF s.tree node (O.opApply op (s.tree node) st en) := rfl
          have hih : s'.hasPending = setF s.hasPending node true := rfl
          have hip : s'.pending = setF s.pending node
            (if s.hasPending node then O.opMerge (s.pending node) op st en else op) := rfl
          have hinc : ∀ k : Nat, st ≤ k → k ≤ en → i ≤ (k : Int) ∧ (k : Int) ≤ j := by
            intro k hk1 hk2
            omega
          rw [Repr_node_iff O ea s' _ node st en hst]
          constructor
          · rw [hit, setF_same, ht, apply_rangeAgg O ea L f op st en hle]
            refine rangeAgg_congr O _ _ (en - st + 1) st en (by omega) hle ?_
            intro k hk1 hk2
            rw [applyOn_in ea op i j f k (hinc k hk1 hk2)]
          · refine ⟨g, ?_, ?_, ?_⟩
            · intro k hk1 hk2
              rw [hih, hip, setF_same, setF_same, if_pos rfl]
              rw [applyOn_in ea op i j f k (hinc k hk1 hk2)]
              by_cases hp : s.hasPending node
              · rw [if_pos hp, L.merge_elem]
                have := hg k hk1 hk2
                rw [if_pos hp] at this
                rw [this]
              · rw [if_neg hp]
                have := hg k hk1 hk2
                rw [if_neg hp] at this
                rw [this]
            · refine repr_child_ext O ea s s' g (left node) st ((st + en) / 2) node
                (fun k hk => ne_node_of_inSub_left hv hk) ?_ hgl
              intro k hk
              rw [hit, hih, hip]
              exact ⟨setF_other _ node k _ hk, setF_other _ node k _ hk,
                setF_other _ node k _ hk⟩
            · refine repr_child_ext O ea s s' g (right node) ((st + en) / 2 + 1) en node
                (fun k hk => ne_node_of_inSub_right hv hk) ?_ hgr
              intro k hk
              rw [hit, hih, hip]
              exact ⟨setF_other _ node k _ hk, setF_other _ node k _ hk,
                setF_other _ node k _ hk⟩
        · rw [updateAux_split O s node st en i j op hdis hleaf hcon]
          set s1 := applyPending O s node st en with hs1
          set s2 := (if i ≤ (((st + en) / 2 : Nat) : Int)
            then updateAux O s1 (left node) st ((st + en) / 2) i j op else s1) with hs2
          set s3 := (if (((st + en) / 2 : Nat) : Int) < j
            then updateAux O s2 (right node) ((st + en) / 2 + 1) en i j op else s2) with hs3
          show Repr O ea
            { s3 with tree := setF s3.tree node (O.join (s3.tree (left node)) (s3.tree (right node))) }
            (applyOn ea op i j f) node st en
          have hlv : (1 : Nat) ≤ left node := by
            simp only [left]
            omega
          have hrv : (1 : Nat) ≤ right node := by
            simp only [right]
            omega
          rw [Repr_node_iff O ea s f node st en hst] at hrepr
          obtain ⟨ht, g, hg, hgl, hgr⟩ := hrepr
          have hA : Repr O ea s1 f (left node) st ((st + en) / 2) ∧
              Repr O ea s1 f (right node) ((st + en) / 2 + 1) en ∧
              s1.tree node = s.tree node ∧ s1.hasPending node = false := by
            rw [hs1]
            unfold applyPending
            by_cases hp : s.hasPending node
            · simp only [hp, if_true]
              set sa := updateAux O s (left node) st ((st + en) / 2) (st : Int) (en : Int)
                (s.pending node) with hsa
              have hraw : Repr O ea sa (applyOn ea (s.pending node) (st : Int) (en : Int) g)
                  (left node) st ((st + en) / 2) :=
                ih s g (left node) st ((st + en) / 2) (st : Int) (en : Int) (s.pending node)
                  (by omega) (by omega) hlv hgl
              have hra : Repr O ea sa f (left node) st ((st + en) / 2) := by
                refine reprCongr O ea sa _ f (left node) st ((st + en) / 2) (by omega) ?_ hraw
                intro k hk1 hk2
                rw [applyOn_in ea (s.pending node) (st : Int) (en : Int) g k (by omega)]
                have := hg k hk1 (by omega)
                rw [if_pos hp] at this
                exact this.symm
              have hgrs : Repr O ea sa g (right node) ((st + en) / 2 + 1) en := by
                refine reprExt O ea (en - ((st + en) / 2 + 1) + 1) s sa g (right node)
                  ((st + en) / 2 + 1) en (by omega) ?_ hgr
                intro k hk
                exact agreeAt_symm (updateAux_agree O s (left node) st ((st + en) / 2)
                  (st : Int) (en : Int) (s.pending node) k
                  (fun hl => inSub_left_right_disjoint hv hl hk))
              have hagan : agreeAt sa s node :=
                updateAux_agree O s (left node) st ((st + en) / 2) (st : Int) (en : Int)
                  (s.pending node) node (not_inSub_left_self hv)
              rw [show sa.pending node = s.pending node from hagan.2.2]
              set sb := updateAux O sa (right node) ((st + en) / 2 + 1) en (st : Int) (en : Int)
                (s.pending node) with hsb
              have hrbw : Repr O ea sb (applyOn ea (s.pending node) (st : Int) (en : Int) g)
                  (right node) ((st + en) / 2 + 1) en :=
                ih sa g (right node) ((st + en) / 2 + 1) en (st : Int) (en : Int)
                  (s.pending node) (by omega) (by omega) hrv hgrs
              have hrb : Repr O ea sb f (right node) ((st + en) / 2 + 1) en := by
                refine reprCongr O ea sb _ f (right node) ((st + en) / 2 + 1) en (by omega)
                  ?_ hrbw
                intro k hk1 hk2
                rw [applyOn_in ea (s.pending node) (st : Int) (en : Int) g k (by omega)]
                have := hg k (by omega) hk2
                rw [if_pos hp] at this
                exact this.symm
              have hras : Repr O ea sb f (left node) st ((st + en) / 2) := by
                refine reprExt O ea ((st + en) / 2 - st + 1) sa sb f (left node) st
                  ((st + en) / 2) (by omega) ?_ hra
                intro k hk
                exact agreeAt_symm (updateAux_agree O sa (right node) ((st + en) / 2 + 1) en
                  (st : Int) (en : Int) (s.pending node) k
                  (fun hr => inSub_left_right_disjoint hv hk hr))
              have hagbn : agreeAt sb sa node :=
                updateAux_agree O sa (right node) ((st + en) / 2 + 1) en (st : Int) (en : Int)
                  (s.pending node) node (not_inSub_right_self hv)
              refine ⟨?_, ?_, ?_, ?_⟩
              · refine repr_child_ext O ea sb _ f (left node) st ((st + en) / 2) node
                  (fun k hk => ne_node_of_inSub_left hv hk) ?_ hras
                intro k hk
                exact ⟨rfl, setF_other _ node k _ hk, rfl⟩
              · refine repr_child_ext O ea sb _ f (right node) ((st + en) / 2 + 1) en node
                  (fun k hk => ne_node_of_inSub_right hv hk) ?_ hrb
                intro k hk
                exact ⟨rfl, setF_other _ node k _ hk, rfl⟩
              · exact hagbn.1.trans hagan.1
              · exact setF_same _ _ _
            · simp only [hp, if_false]
              have hpf : s.hasPending node = false := by
                simpa using hp
              refine ⟨?_, ?_, rfl, hpf⟩
              · refine reprCongr O ea s g f (left node) st ((st + en) / 2) (by omega) ?_ hgl
                intro k hk1 hk2
                have := hg k hk1 (by omega)
                rw [if_neg hp] at this
                exact this.symm
              · refine reprCongr O ea s g f (right node) ((st + en) / 2 + 1) en (by omega)
                  ?_ hgr
                intro k hk1 hk2
                have := hg k (by omega) hk2
                rw [if_neg hp] at this
                exact this.symm
          have hB : Repr O ea s2 (applyOn ea op i j f) (left node) st ((st + en) / 2) ∧
              Repr O ea s2 f (right node) ((st + en) / 2 + 1) en ∧
              s2.tree node = s.tree node ∧ s2.hasPending node = false := by
            rw [hs2]
            by_cases hil : i ≤ (((st + en) / 2 : Nat) : Int)
            · simp only [hil, if_true]
              refine ⟨ih s1 f (left node) st ((st + en) / 2) i j op (by omega) (by omega)
                hlv hA.1, ?_, ?_, ?_⟩
              · refine reprExt O ea (en - ((st + en) / 2 + 1) + 1) s1 _ f (right node)
                  ((st + en) / 2 + 1) en (by omega) ?_ hA.2.1
                intro k hk
                exact agreeAt_symm (updateAux_agree O s1 (left node) st ((st + en) / 2) i j op
                  k (fun hl => inSub_left_right_disjoint hv hl hk))
              · exact ((updateAux_agree O s1 (left node) st ((st + en) / 2) i j op node
                  (not_inSub_left_self hv)).1).trans hA.2.2.1
              · exact ((updateAux_agree O s1 (left node) st ((st + en) / 2) i j op node
                  (not_inSub_left_self hv)).2.1).trans hA.2.2.2
            · simp only [hil, if_false]
              refine ⟨?_, hA.2.1, hA.2.2.1, hA.2.2.2⟩
              refine reprCongr O ea s1 f _ (left node) st ((st + en) / 2) (by omega) ?_ hA.1
              intro k hk1 hk2
              rw [applyOn_notin ea op i j f k (by omega)]
          have hC : Repr O ea s3 (applyOn ea op i j f) (left node) st ((st + en) / 2) ∧
              Repr O ea s3 (applyOn ea op i j f) (right node) ((st + en) / 2 + 1) en ∧
              s3.tree node = s.tree node ∧ s3.hasPending node = false := by
            rw [hs3]
            by_cases hjr : (((st + en) / 2 : Nat) : Int) < j
            · simp only [hjr, if_true]
              refine ⟨?_, ih s2 f (right node) ((st + en) / 2 + 1) en i j op (by omega)
                (by omega) hrv hB.2.1, ?_, ?_⟩
              · refine reprExt O ea ((st + en) / 2 - st + 1) s2 _ (applyOn ea op i j f)
                  (left node) st ((st + en) / 2) (by omega) ?_ hB.1
                intro k hk
                exact agreeAt_symm (updateAux_agree O s2 (right node) ((st + en) / 2 + 1) en
                  i j op k (fun hr => inSub_left_right_disjoint hv hk hr))
              · exact ((updateAux_agree O s2 (right node) ((st + en) / 2 + 1) en i j op node
                  (not_inSub_right_self hv)).1).trans hB.2.2.1
              · exact ((updateAux_agree O s2 (right node) ((st + en) / 2 + 1) en i j op node
                  (not_inSub_right_self hv)).2.1).trans hB.2.2.2
            · simp only [hjr, if_false]
              refine ⟨hB.1, ?_, hB.2.2.1, hB.2.2.2⟩
              refine reprCongr O ea s2 f _ (right node) ((st + en) / 2 + 1) en (by omega)
                ?_ hB.2.1
              intro k hk1 hk2
              rw [applyOn_notin ea op i j f k (by omega)]
          set s4 : SegState Node Op :=
            { s3 with tree := setF s3.tree node (O.join (s3.tree (left node)) (s3.tree (right node))) }
            with hs4def
          have h4t : s4.tree = setF s3.tree node (O.join (s3.tree (left node)) (s3.tree (right node))) :=
            rfl
          have h4h : s4.hasPending = s3.hasPending := rfl
          have h4p : s4.pending = s3.pending := rfl
          rw [Repr_node_iff O ea s4 _ node st en hst]
          constructor
          · rw [h4t, setF_same, repr_tree O ea hC.1, repr_tree O ea hC.2.1,
              ← rangeAgg_node O _ st en hst]
          · refine ⟨applyOn ea op i j f, ?_, ?_, ?_⟩
            · intro k hk1 hk2
              have hpn : s4.hasPending node = false := by
                rw [h4h]
                exact hC.2.2.2
              rw [hpn]
              simp
            · refine repr_child_ext O ea s3 s4 (applyOn ea op i j f) (left node) st
                ((st + en) / 2) node (fun k hk => ne_node_of_inSub_left hv hk) ?_ hC.1
              intro k hk
              refine ⟨?_, by rw [h4h], by rw [h4p]⟩
              rw [h4t, setF_other _ node k _ hk]
            · refine repr_child_ext O ea s3 s4 (applyOn ea op i j f) (right node)
                ((st + en) / 2 + 1) en node (fun k hk => ne_node_of_inSub_right hv hk) ?_ hC.2.1
              intro k hk
              refine ⟨?_, by rw [h4h], by rw [h4p]⟩
              rw [h4t, setF_other _ node k _ hk]

/-! ### Query correctness -/

/-- The value `query(node, st, end, i, j)` returns: the aggregate of the
abstract array over the intersection of `[st, en]` with `[i, j]`, or the
default-constructed node when the intersection is empty. -/
def clip (O : SegOps Node Op) (f : Nat → Int) (st en : Nat) (i j : Int) : Node :=
  if max (st : Int) i ≤ min (en : Int) j
  then lineAgg O f (max (st : Int) i).toNat (min (en : Int) j).toNat
  else O.init

theorem clip_join (O : SegOps Node Op) (ea : Op → Int → Int) (L : SegLaws O ea)
    (f : Nat → Int) (st m en : Nat) (i j : Int) (hm1 : st ≤ m) (hm2 : m < en) :
    O.join (clip O f st m i j) (clip O f (m + 1) en i j) = clip O f st en i j := by
  unfold clip
  by_cases hc1 : max (st : Int) i ≤ min (m : Int) j
  · by_cases hc2 : max ((m + 1 : Nat) : Int) i ≤ min (en : Int) j
    · have hc3 : max (st : Int) i ≤ min (en : Int) j := by omega
      rw [if_pos hc1, if_pos hc2, if_pos hc3]
      have e1 : (min (m : Int) j).toNat = m := by omega
      have e2 : (max ((m + 1 : Nat) : Int) i).toNat = m + 1 := by omega
      rw [e1, e2]
      exact lineAgg_append O ea L f ((min (en : Int) j).toNat - m + 1)
        (max (st : Int) i).toNat m (min (en : Int) j).toNat (by omega) (by omega) (by omega)
    · have hc3 : max (st : Int) i ≤ min (en : Int) j := by omega
      rw [if_pos hc1, if_neg hc2, if_pos hc3, L.join_init_right]
      have e1 : (min (m : Int) j).toNat = (min (en : Int) j).toNat := by omega
      rw [e1]
  · by_cases hc2 : max ((m + 1 : Nat) : Int) i ≤ min (en : Int) j
    · have hc3 : max (st : Int) i ≤ min (en : Int) j := by omega
      rw [if_neg hc1, if_pos hc2, if_pos hc3, L.join_init_left]
      have e2 : (max ((m + 1 : Nat) : Int) i).toNat = (max (st : Int) i).toNat := by omega
      rw [e2]
    · have hc3 : ¬ (max (st : Int) i ≤ min (en : Int) j) := by omega
      rw [if_neg hc1, if_neg hc2, if_neg hc3, L.join_init_left]

/-- Pushing a pending update down one level preserves what the children
represent, does not change the aggregate cached at `node`, and clears the
flag at `node`. -/
theorem applyPending_repr (O : SegOps Node Op) (ea : Op → Int → Int) (L : SegLaws O ea)
    (s : SegState Node Op) (f : Nat → Int) (node st en : Nat)
    (hst : st < en) (hv : 1 ≤ node) (hrepr : Repr O ea s f node st en) :
    Repr O ea (applyPending O s node st en) f (left node) st ((st + en) / 2) ∧
    Repr O ea (applyPending O s node st en) f (right node) ((st + en) / 2 + 1) en ∧
    (applyPending O s node st en).tree node = s.tree node ∧
    (applyPending O s node st en).hasPending node = false := by
  have hlv : (1 : Nat) ≤ left node := by
    simp only [left]
    omega
  have hrv : (1 : Nat) ≤ right node := by
    simp only [right]
    omega
  rw [Repr_node_iff O ea s f node st en hst] at hrepr
  obtain ⟨ht, g, hg, hgl, hgr⟩ := hrepr
  unfold applyPending
  by_cases hp : s.hasPending node
  · simp only [hp, if_true]
    set sa := updateAux O s (left node) st ((st + en) / 2) (st : Int) (en : Int)
      (s.pending node) with hsa
    have hraw : Repr O ea sa (applyOn ea (s.pending node) (st : Int) (en : Int) g)
        (left node) st ((st + en) / 2) :=
      updateAux_repr O ea L ((st + en) / 2 - st + 1) s g (left node) st ((st + en) / 2)
        (st : Int) (en : Int) (s.pending node) (by omega) (by omega) hlv hgl
    have hra : Repr O ea sa f (left node) st ((st + en) / 2) := by
      refine reprCongr O ea sa _ f (left node) st ((st + en) / 2) (by omega) ?_ hraw
      intro k hk1 hk2
      rw [applyOn_in ea (s.pending node) (st : Int) (en : Int) g k (by omega)]
      have := hg k hk1 (by omega)
      rw [if_pos hp] at this
      exact this.symm
    have hgrs : Repr O ea sa g (right node) ((st + en) / 2 + 1) en := by
      refine reprExt O ea (en - ((st + en) / 2 + 1) + 1) s sa g (right node)
        ((st + en) / 2 + 1) en (by omega) ?_ hgr
      intro k hk
      exact agreeAt_symm (updateAux_agree O s (left node) st ((st + en) / 2)
        (st : Int) (en : Int) (s.pending node) k
        (fun hl => inSub_left_right_disjoint hv hl hk))
    have hagan : agreeAt sa s node :=
      updateAux_agree O s (left node) st ((st + en) / 2) (st : Int) (en : Int)
        (s.pending node) node (not_inSub_left_self hv)
    rw [show sa.pending node = s.pending node from hagan.2.2]
    set sb := updateAux O sa (right node) ((st + en) / 2 + 1) en (st : Int) (en : Int)
      (s.pending node) with hsb
    have hrbw : Repr O ea sb (applyOn ea (s.pending node) (st : Int) (en : Int) g)
        (right node) ((st + en) / 2 + 1) en :=
      updateAux_repr O ea L (en - ((st + en) / 2 + 1) + 1) sa g (right node)
        ((st + en) / 2 + 1) en (st : Int) (en : Int) (s.pending node) (by omega) (by omega)
        hrv hgrs
    have hrb : Repr O ea sb f (right node) ((st + en) / 2 + 1) en := by
      refine reprCongr O ea sb _ f (right node) ((st + en) / 2 + 1) en (by omega) ?_ hrbw
      intro k hk1 hk2
      rw [applyOn_in ea (s.pending node) (st : Int) (en : Int) g k (by omega)]
      have := hg k (by omega) hk2
      rw [if_pos hp] at this
      exact this.symm
    have hras : Repr O ea sb f (left node) st ((st + en) / 2) := by
      refine reprExt O ea ((st + en) / 2 - st + 1) sa sb f (left node) st
        ((st + en) / 2) (by omega) ?_ hra
      intro k hk
      exact agreeAt_symm (updateAux_agree O sa (right node) ((st + en) / 2 + 1) en
        (st : Int) (en : Int) (s.pending node) k
        (fun hr => inSub_left_right_disjoint hv hk hr))
    have hagbn : agreeAt sb sa node :=
      updateAux_agree O sa (right node) ((st + en) / 2 + 1) en (st : Int) (en : Int)
        (s.pending node) node (not_inSub_right_self hv)
    refine ⟨?_, ?_, ?_, ?_⟩
    · refine repr_child_ext O ea sb _ f (left node) st ((st + en) / 2) node
        (fun k hk => ne_node_of_inSub_left hv hk) ?_ hras
      intro k hk
      exact ⟨rfl, setF_other _ node k _ hk, rfl⟩
    · refine repr_child_ext O ea sb _ f (right node) ((st + en) / 2 + 1) en node
        (fun k hk => ne_node_of_inSub_right hv hk) ?_ hrb
      intro k hk
      exact ⟨rfl, setF_other _ node k _ hk, rfl⟩
    · exact hagbn.1.trans hagan.1
    · exact setF_same _ _ _
  · simp only [hp, if_false]
    have hpf : s.hasPending node = false := by
      simpa using hp
    refine ⟨?_, ?_, rfl, hpf⟩
    · refine reprCongr O ea s g f (left node) st ((st + en) / 2) (by omega) ?_ hgl
      intro k hk1 hk2
      have := hg k hk1 (by omega)
      rw [if_neg hp] at this
      exact this.symm
    · refine reprCongr O ea s g f (right node) ((st + en) / 2 + 1) en (by omega) ?_ hgr
      intro k hk1 hk2
      have := hg k (by omega) hk2
      rw [if_neg hp] at this
      exact this.symm

theorem queryAux_repr (O : SegOps Node Op) (ea : Op → Int → Int) (L : SegLaws O ea) :
    ∀ (d : Nat) (s : SegState Node Op) (f : Nat → Int) (node st en : Nat) (i j : Int),
      en - st < d → st ≤ en → 1 ≤ node →
      Repr O ea s f node st en →
      Repr O ea (queryAux O s node st en i j).2 f node st en ∧
      (queryAux O s node st en i j).1 = clip O f st en i j := by
  intro d
  induction d with
  | zero => intro s f node st en i j hd _ _ _; omega
  | succ d ih =>
    intro s f node st en i j hd hle hv hrepr
    by_cases hdis : j < (st : Int) ∨ (en : Int) < i
    · rw [queryAux_disjoint O s node st en i j hdis]
      refine ⟨hrepr, ?_⟩
      unfold clip
      rw [if_neg (by omega)]
    · by_cases hcon : i ≤ (st : Int) ∧ (en : Int) ≤ j
      · rw [queryAux_contained O s node st en i j hdis hcon]
        refine ⟨hrepr, ?_⟩
        unfold clip
        rw [if_pos (by omega)]
        have e1 : (max (st : Int) i).toNat = st := by omega
        have e2 : (min (en : Int) j).toNat = en := by omega
        rw [e1, e2, repr_tree O ea hrepr]
        exact rangeAgg_eq_lineAgg O ea L f (en - st + 1) st en (by omega) hle
      · have hst : st < en := branch_lt hdis hcon
        have hlv : (1 : Nat) ≤ left node := by
          simp only [left]
          omega
        have hrv : (1 : Nat) ≤ right node := by
          simp only [right]
          omega
        rw [queryAux_split O s node st en i j hdis hcon]
        set s1 := applyPending O s node st en with hs1
        set q1 := queryAux O s1 (left node) st ((st + en) / 2) i j with hq1
        set q2 := queryAux O q1.2 (right node) ((st + en) / 2 + 1) en i j with hq2
        show Repr O ea q2.2 f node st en ∧ O.join q1.1 q2.1 = clip O f st en i j
        have hap := applyPending_repr O ea L s f node st en hst hv hrepr
        obtain ⟨hq1r, hq1v⟩ := ih s1 f (left node) st ((st + en) / 2) i j (by omega)
          (by omega) hlv hap.1
        have hq1frame := queryAux_untouched O ((st + en) / 2 - st + 1) s1 (left node) st
          ((st + en) / 2) i j (by omega) hlv
        have hq1right : Repr O ea q1.2 f (right node) ((st + en) / 2 + 1) en := by
          refine reprExt O ea (en - ((st + en) / 2 + 1) + 1) s1 q1.2 f (right node)
            ((st + en) / 2 + 1) en (by omega) ?_ hap.2.1
          intro k hk
          exact agreeAt_symm (hq1frame.2 k (fun hl => inSub_left_right_disjoint hv hl hk))
        obtain ⟨hq2r, hq2v⟩ := ih q1.2 f (right node) ((st + en) / 2 + 1) en i j (by omega)
          (by omega) hrv hq1right
        have hq2frame := queryAux_untouched O (en - ((st + en) / 2 + 1) + 1) q1.2
          (right node) ((st + en) / 2 + 1) en i j (by omega) hrv
        have hq2left : Repr O ea q2.2 f (left node) st ((st + en) / 2) := by
          refine reprExt O ea ((st + en) / 2 - st + 1) q1.2 q2.2 f (left node) st
            ((st + en) / 2) (by omega) ?_ hq1r
          intro k hk
          exact agreeAt_symm (hq2frame.2 k (fun hr => inSub_left_right_disjoint hv hk hr))
        have hagn1 : agreeAt q1.2 s1 node :=
          hq1frame.2 node (not_inSub_left_self hv)
        have hagn2 : agreeAt q2.2 q1.2 node :=
          hq2frame.2 node (not_inSub_right_self hv)
        constructor
        · rw [Repr_node_iff O ea q2.2 f node st en hst]
          constructor
          · rw [hagn2.1, hagn1.1, hap.2.2.1]
            exact repr_tree O ea hrepr
          · refine ⟨f, ?_, hq2left, hq2r⟩
            intro k hk1 hk2
            rw [hagn2.2.1, hagn1.2.1, hap.2.2.2]
            simp
        · rw [hq1v, hq2v]
          exact clip_join O ea L f st ((st + en) / 2) en i j (by omega) (by omega)

/-! ### The concrete instantiation of `segment-tree.cpp` (lines 119-153)

`Node` holds the minimum and maximum of an interval (`Node()` is
`(INF, -INF)` with `INF = 1e9` as `int`); `Op` is a tagged update: code
`'s'` sets every value in the range to `arg`, code `'a'` adds `arg`, any
other code is a no-op (the `switch` falls through).  `Op()` leaves `code`
and `arg` uninitialised in the C++; the model fixes an arbitrary inert
value, which the engine never reads before overwriting. -/

structure CNode where
  minVal : Int
  maxVal : Int
deriving DecidableEq

structure COp where
  code : Char
  arg : Int
deriving DecidableEq

def INF : Int := 1000000000

/-- `Op::apply` of the concrete instantiation (the `switch` on `code`). -/
def cApply (op : COp) (nd : CNode) (st en : Nat) : CNode :=
  if op.code = 's' then { nd with minVal := op.arg, maxVal := op.arg }
  else if op.code = 'a' then { nd with minVal := nd.minVal + op.arg, maxVal := nd.maxVal + op.arg }
  else nd

/-- `Op::merge` of the concrete instantiation. -/
def cMerge (p q : COp) (st en : Nat) : COp :=
  if q.code = 's' then q else ⟨p.code, p.arg + q.arg⟩

def cOps : SegOps CNode COp where
  init := ⟨INF, -INF⟩
  leaf := fun _ v => ⟨v, v⟩
  join := fun a o => ⟨min a.minVal o.minVal, max a.maxVal o.maxVal⟩
  opInit := ⟨'n', 0⟩
  opApply := cApply
  opMerge := cMerge

/-- The tree of `main()`: `SegTree<Node, Op> tree(n, arr)` with `n = 100`
over the zero-initialised global array `arr`. -/
def demo0 : SegState CNode COp := segMake cOps 100 (fun _ => 0)

/-- `demo0` after `update(0, 49, set 5)`. -/
def demo1 : SegState CNode COp := updatePub cOps demo0 0 49 ⟨'s', 5⟩

/-- `demo1` after `update(25, 74, add 3)`. -/
def demo2 : SegState CNode COp := updatePub cOps demo1 25 74 ⟨'a', 3⟩

/-! ### A law-abiding instantiation used for witnesses

Aggregate: maximum of the values clamped to `Nat` (identity `0`); update:
add a natural constant.  Every clause of `SegLaws` holds unconditionally,
so this instantiation witnesses the generic theorems. -/

def mOps : SegOps Nat Nat where
  init := 0
  leaf := fun _ v => v.toNat
  join := fun a b => max a b
  opInit := 0
  opApply := fun c x _ _ => x + c
  opMerge := fun p q _ _ => p + q

def mEa : Nat → Int → Int := fun c v => max v 0 + (c : Int)

theorem mLaws : SegLaws mOps mEa := by
  constructor
  · intro a b c
    exact max_assoc a b c
  · intro a
    simp [mOps]
  · intro a
    simp [mOps]
  · intro op a b lo mid hi _ _
    simp only [mOps]
    omega
  · intro op k v
    simp only [mOps, mEa]
    omega
  · intro p q lo hi v
    simp only [mOps, mEa]
    omega

/-! ### Public-interface consequences of the simulation theorems -/

theorem lineAgg_congr (O : SegOps Node Op) (f f' : Nat → Int) :
    ∀ (d a b : Nat), b - a < d → a ≤ b →
      (∀ k, a ≤ k → k ≤ b → f k = f' k) →
      lineAgg O f a b = lineAgg O f' a b := by
  intro d
  induction d with
  | zero => intro a b hd _ _; omega
  | succ d ih =>
    intro a b hd hab hf
    by_cases h : b ≤ a
    · rw [lineAgg_single O f a b h, lineAgg_single O f' a b h, hf a (le_refl a) hab]
    · have hab' : a < b := by omega
      rw [lineAgg_step O f a b hab', lineAgg_step O f' a b hab',
        ih a (b - 1) (by omega) (by omega) (fun k h1 h2 => hf k h1 (by omega)),
        hf b (by omega) (le_refl b)]

theorem clip_whole (O : SegOps Node Op) (g : Nat → Int) (n a b : Nat)
    (hn : 1 ≤ n) (hab : a ≤ b) (hbn : b ≤ n - 1) :
    clip O g 0 (n - 1) (a : Int) (b : Int) = lineAgg O g a b := by
  unfold clip
  rw [if_pos (by omega)]
  have e1 : (max (((0 : Nat)) : Int) (a : Int)).toNat = a := by omega
  have e2 : (min (((n - 1 : Nat)) : Int) (b : Int)).toNat = b := by omega
  rw [e1, e2]

/-- `update(i, j, op)` turns a state representing `f` into a state
representing the pointwise-updated array, for arbitrary `i`, `j`. -/
theorem updatePub_spec (O : SegOps Node Op) (ea : Op → Int → Int) (L : SegLaws O ea)
    (s : SegState Node Op) (f : Nat → Int) (hn : 1 ≤ s.size)
    (hrepr : Repr O ea s f 1 0 (s.size - 1)) (i j : Int) (op : Op) :
    Repr O ea (updatePub O s i j op) (applyOn ea op i j f) 1 0 (s.size - 1) ∧
    (updatePub O s i j op).size = s.size := by
  constructor
  · exact updateAux_repr O ea L (s.size - 1 + 1) s f 1 0 (s.size - 1) i j op (by omega)
      (by omega) (le_refl 1) hrepr
  · exact updateAux_size O s 1 0 (s.size - 1) i j op

/-- `query(a, b)` on a state representing `f` returns the aggregate of `f`
over `[a, b]` and leaves a state still representing `f`. -/
theorem queryPub_spec (O : SegOps Node Op) (ea : Op → Int → Int) (L : SegLaws O ea)
    (s : SegState Node Op) (f : Nat → Int) (hn : 1 ≤ s.size)
    (hrepr : Repr O ea s f 1 0 (s.size - 1)) (a b : Nat)
    (hab : a ≤ b) (hbn : b ≤ s.size - 1) :
    (queryPub O s (a : Int) (b : Int)).1 = lineAgg O f a b ∧
    Repr O ea (queryPub O s (a : Int) (b : Int)).2 f 1 0 (s.size - 1) ∧
    (queryPub O s (a : Int) (b : Int)).2.size = s.size := by
  obtain ⟨h1, h2⟩ := queryAux_repr O ea L (s.size - 1 + 1) s f 1 0 (s.size - 1)
    (a : Int) (b : Int) (by omega) (by omega) (le_refl 1) hrepr
  unfold queryPub
  refine ⟨?_, h1, ?_⟩
  · rw [h2]
    exact clip_whole O f s.size a b hn hab hbn
  · exact (queryAux_untouched O (s.size - 1 + 1) s 1 0 (s.size - 1) (a : Int) (b : Int)
      (by omega) (le_refl 1)).1

/-! ### Claim C1 -/

/-- C1: for every tree built from a seed of length n (more generally, any
reachable state representing an abstract array `f`) and every valid interval
`0 ≤ i ≤ j < n` and update `op` of a law-abiding instantiation, after
`update(i, j, op)` a query over any sub-range `[a, b]` fully inside `[i, j]`
returns exactly what `Op::apply` computes on that sub-range's previous
aggregate, and a query over any sub-range fully outside `[i, j]` returns the
same aggregate as before the update. -/
theorem C1_update_frame_effect {Node Op : Type} (O : SegOps Node Op)
    (ea : Op → Int → Int) (L : SegLaws O ea) (s : SegState Node Op) (f : Nat → Int)
    (hn : 1 ≤ s.size) (hrepr : Repr O ea s f 1 0 (s.size - 1))
    (i j a b : Nat) (op : Op)
    (hij : i ≤ j) (hjn : j ≤ s.size - 1) (hab : a ≤ b) (hbn : b ≤ s.size - 1) :
    ((i ≤ a ∧ b ≤ j) →
      (queryPub O (updatePub O s (i : Int) (j : Int) op) (a : Int) (b : Int)).1
        = O.opApply op (queryPub O s (a : Int) (b : Int)).1 a b) ∧
    ((b < i ∨ j < a) →
      (queryPub O (updatePub O s (i : Int) (j : Int) op) (a : Int) (b : Int)).1
        = (queryPub O s (a : Int) (b : Int)).1) := by
  obtain ⟨hur, husz⟩ := updatePub_spec O ea L s f hn hrepr (i : Int) (j : Int) op
  have hq0 := queryPub_spec O ea L s f hn hrepr a b hab hbn
  have hq1 := queryPub_spec O ea L (updatePub O s (i : Int) (j : Int) op)
    (applyOn ea op (i : Int) (j : Int) f) (by omega) (by rw [husz]; exact hur) a b hab
    (by omega)
  rw [husz] at hq1
  constructor
  · intro hin
    rw [hq1.1, hq0.1]
    rw [apply_lineAgg O ea L f op (b - a + 1) a b (by omega) hab]
    refine lineAgg_congr O _ _ (b - a + 1) a b (by omega) hab ?_
    intro k hk1 hk2
    rw [applyOn_in ea op (i : Int) (j : Int) f k (by omega)]
  · intro hout
    rw [hq1.1, hq0.1]
    refine lineAgg_congr O _ _ (b - a + 1) a b (by omega) hab ?_
    intro k hk1 hk2
    rw [applyOn_notin ea op (i : Int) (j : Int) f k (by omega)]

/-- Witness for C1: the max/add instantiation on a freshly built tree of
four zeros, updating `[1, 2]` by adding 5, querying `[1, 2]` (inside) and
with the outside case available for the disjoint sub-range `[3, 3]`. -/
theorem C1_update_frame_effect_witness :
    SegLaws mOps mEa ∧ 1 ≤ (segMake mOps 4 (fun _ => 0)).size ∧
    Repr mOps mEa (segMake mOps 4 (fun _ => 0)) (fun _ => 0) 1 0
      ((segMake mOps 4 (fun _ => 0)).size - 1) ∧
    (1 ≤ 2 ∧ 2 ≤ (segMake mOps 4 (fun _ => 0)).size - 1 ∧ 1 ≤ 2 ∧
      2 ≤ (segMake mOps 4 (fun _ => 0)).size - 1) ∧
    (((1 ≤ 1 ∧ 2 ≤ 2) →
      (queryPub mOps (updatePub mOps (segMake mOps 4 (fun _ => 0)) (1 : Int) (2 : Int) 5)
        ((1 : Nat) : Int) ((2 : Nat) : Int)).1
        = mOps.opApply 5 (queryPub mOps (segMake mOps 4 (fun _ => 0))
            ((1 : Nat) : Int) ((2 : Nat) : Int)).1 1 2) ∧
     ((2 < 1 ∨ 2 < 1) →
      (queryPub mOps (updatePub mOps (segMake mOps 4 (fun _ => 0)) (1 : Int) (2 : Int) 5)
        ((1 : Nat) : Int) ((2 : Nat) : Int)).1
        = (queryPub mOps (segMake mOps 4 (fun _ => 0))
            ((1 : Nat) : Int) ((2 : Nat) : Int)).1)) := by
  refine ⟨mLaws, by decide, segMake_repr mOps mEa 4 (fun _ => 0) (by norm_num),
    ⟨by norm_num, by decide, by norm_num, by decide⟩, ?_⟩
  exact C1_update_frame_effect mOps mEa mLaws (segMake mOps 4 (fun _ => 0)) (fun _ => 0)
    (by decide) (segMake_repr mOps mEa 4 (fun _ => 0) (by norm_num)) 1 2 1 2 5
    (by norm_num) (by decide) (by norm_num) (by decide)

/-! ### Claim C2 -/

/-- C2: on the concrete min/max instantiation with n = 100 zero-seeded
elements, after `update(0, 49, set 5)` and `update(25, 74, add 3)`, the
four queries return min = max = 5, 8, 3 and 0 respectively (state threaded
through the queries as in the interactive `main` loop). -/
theorem C2_concrete_scenario :
    (queryPub cOps demo2 0 24).1 = ⟨5, 5⟩ ∧
    (queryPub cOps (queryPub cOps demo2 0 24).2 25 49).1 = ⟨8, 8⟩ ∧
    (queryPub cOps (queryPub cOps (queryPub cOps demo2 0 24).2 25 49).2 50 74).1
      = ⟨3, 3⟩ ∧
    (queryPub cOps (queryPub cOps (queryPub cOps (queryPub cOps demo2 0 24).2
      25 49).2 50 74).2 75 99).1 = ⟨0, 0⟩ := by
  decide

/-! ### Claim C3

The public entry points perform no range validation whatsoever: there is no
`OutOfRangeError` anywhere in the code.  A bound reaching past the tree is
silently clamped by the disjointness tests of the traversal. -/

theorem updateGo_low (O : SegOps Node Op) :
    ∀ (d f1 : Nat) (s : SegState Node Op) (node st en : Nat) (i i' j : Int) (op : Op),
      en - st < d → en - st < f1 → st ≤ en → i ≤ (st : Int) → i' ≤ (st : Int) →
      updateGo O f1 s node st en i j op = updateGo O f1 s node st en i' j op := by
  intro d
  induction d with
  | zero => intro f1 s node st en i i' j op hd _ _ _ _; omega
  | succ d ih =>
    intro f1 s node st en i i' j op hd h1 hle hi hi'
    obtain ⟨a, rfl⟩ : ∃ a, f1 = a + 1 := ⟨f1 - 1, by omega⟩
    simp only [updateGo]
    by_cases hj : j < (st : Int)
    · rw [if_pos (show j < (st : Int) ∨ (en : Int) < i from Or.inl hj),
        if_pos (show j < (st : Int) ∨ (en : Int) < i' from Or.inl hj)]
    · rw [if_neg (show ¬(j < (st : Int) ∨ (en : Int) < i) by omega),
        if_neg (show ¬(j < (st : Int) ∨ (en : Int) < i') by omega)]
      by_cases hleaf : st = en
      · rw [if_pos hleaf, if_pos hleaf]
      · rw [if_neg hleaf, if_neg hleaf]
        by_cases hen : (en : Int) ≤ j
        · rw [if_pos (show i ≤ (st : Int) ∧ (en : Int) ≤ j by omega),
            if_pos (show i' ≤ (st : Int) ∧ (en : Int) ≤ j by omega)]
        · rw [if_neg (show ¬(i ≤ (st : Int) ∧ (en : Int) ≤ j) by omega),
            if_neg (show ¬(i' ≤ (st : Int) ∧ (en : Int) ≤ j) by omega)]
          have hst : st < en := by omega
          rw [if_pos (show i ≤ (((st + en) / 2 : Nat) : Int) by omega),
            if_pos (show i' ≤ (((st + en) / 2 : Nat) : Int) by omega)]
          have e1 : ∀ (t : SegState Node Op),
              updateGo O a t (left node) st ((st + en) / 2) i j op
              = updateGo O a t (left node) st ((st + en) / 2) i' j op := by
            intro t
            exact ih a t (left node) st ((st + en) / 2) i i' j op (by omega) (by omega)
              (by omega) hi hi'
          rw [e1]
          have e2 : ∀ (t : SegState Node Op),
              updateGo O a t (right node) ((st + en) / 2 + 1) en i j op
              = updateGo O a t (right node) ((st + en) / 2 + 1) en i' j op := by
            intro t
            exact ih a t (right node) ((st + en) / 2 + 1) en i i' j op (by omega) (by omega)
              (by omega) (by omega) (by omega)
          rw [e2]

theorem updateGo_high (O : SegOps Node Op) :
    ∀ (d f1 : Nat) (s : SegState Node Op) (node st en : Nat) (i j j' : Int) (op : Op),
      en - st < d → en - st < f1 → st ≤ en → (en : Int) ≤ j → (en : Int) ≤ j' →
      updateGo O f1 s node st en i j op = updateGo O f1 s node st en i j' op := by
  intro d
  induction d with
  | zero => intro f1 s node st en i j j' op hd _ _ _ _; omega
  | succ d ih =>
    intro f1 s node st en i j j' op hd h1 hle hj hj'
    obtain ⟨a, rfl⟩ : ∃ a, f1 = a + 1 := ⟨f1 - 1, by omega⟩
    simp only [updateGo]
    by_cases hi : (en : Int) < i
    · rw [if_pos (show j < (st : Int) ∨ (en : Int) < i from Or.inr hi),
        if_pos (show j' < (st : Int) ∨ (en : Int) < i from Or.inr hi)]
    · rw [if_neg (show ¬(j < (st : Int) ∨ (en : Int) < i) by omega),
        if_neg (show ¬(j' < (st : Int) ∨ (en : Int) < i) by omega)]
      by_cases hleaf : st = en
      · rw [if_pos hleaf, if_pos hleaf]
      · rw [if_neg hleaf, if_neg hleaf]
        by_cases hst' : i ≤ (st : Int)
        · rw [if_pos (show i ≤ (st : Int) ∧ (en : Int) ≤ j by omega),
            if_pos (show i ≤ (st : Int) ∧ (en : Int) ≤ j' by omega)]
        · rw [if_neg (show ¬(i ≤ (st : Int) ∧ (en : Int) ≤ j) by omega),
            if_neg (show ¬(i ≤ (st : Int) ∧ (en : Int) ≤ j') by omega)]
          have hst : st < en := by omega
          rw [if_pos (show (((st + en) / 2 : Nat) : Int) < j by omega),
            if_pos (show (((st + en) / 2 : Nat) : Int) < j' by omega)]
          have e1 : ∀ (t : SegState Node Op),
              updateGo O a t (left node) st ((st + en) / 2) i j op
              = updateGo O a t (left node) st ((st + en) / 2) i j' op := by
            intro t
            exact ih a t (left node) st ((st + en) / 2) i j j' op (by omega) (by omega)
              (by omega) (by omega) (by omega)
          rw [e1]
          have e2 : ∀ (t : SegState Node Op),
              updateGo O a t (right node) ((st + en) / 2 + 1) en i j op
              = updateGo O a t (right node) ((st + en) / 2 + 1) en i j' op := by
            intro t
            exact ih a t (right node) ((st + en) / 2 + 1) en i j j' op (by omega) (by omega)
              (by omega) hj hj'
          rw [e2]

theorem queryGo_low (O : SegOps Node Op) :
    ∀ (d f1 : Nat) (s : SegState Node Op) (node st en : Nat) (i i' j : Int),
      en - st < d → en - st < f1 → st ≤ en → i ≤ (st : Int) → i' ≤ (st : Int) →
      queryGo O f1 s node st en i j = queryGo O f1 s node st en i' j := by
  intro d
  induction d with
  | zero => intro f1 s node st en i i' j hd _ _ _ _; omega
  | succ d ih =>
    intro f1 s node st en i i' j hd h1 hle hi hi'
    obtain ⟨a, rfl⟩ : ∃ a, f1 = a + 1 := ⟨f1 - 1, by omega⟩
    simp only [queryGo]
    by_cases hj : j < (st : Int)
    · rw [if_pos (show j < (st : Int) ∨ (en : Int) < i from Or.inl hj),
        if_pos (show j < (st : Int) ∨ (en : Int) < i' from Or.inl hj)]
    · rw [if_neg (show ¬(j < (st : Int) ∨ (en : Int) < i) by omega),
        if_neg (show ¬(j < (st : Int) ∨ (en : Int) < i') by omega)]
      by_cases hen : (en : Int) ≤ j
      · rw [if_pos (show i ≤ (st : Int) ∧ (en : Int) ≤ j by omega),
          if_pos (show i' ≤ (st : Int) ∧ (en : Int) ≤ j by omega)]
      · rw [if_neg (show ¬(i ≤ (st : Int) ∧ (en : Int) ≤ j) by omega),
          if_neg (show ¬(i' ≤ (st : Int) ∧ (en : Int) ≤ j) by omega)]
        have hst : st < en := by omega
        have e1 : queryGo O a (applyPending O s node st en) (left node) st ((st + en) / 2) i j
            = queryGo O a (applyPending O s node st en) (left node) st ((st + en) / 2) i' j := by
          exact ih a (applyPending O s node st en) (left node) st ((st + en) / 2) i i' j
            (by omega) (by omega) (by omega) hi hi'
        rw [e1]
        have e2 : ∀ (t : SegState Node Op),
            queryGo O a t (right node) ((st + en) / 2 + 1) en i j
            = queryGo O a t (right node) ((st + en) / 2 + 1) en i' j := by
          intro t
          exact ih a t (right node) ((st + en) / 2 + 1) en i i' j (by omega) (by omega)
            (by omega) (by omega) (by omega)
        rw [e2]

theorem queryGo_high (O : SegOps Node Op) :
    ∀ (d f1 : Nat) (s : SegState Node Op) (node st en : Nat) (i j j' : Int),
      en - st < d → en - st < f1 → st ≤ en → (en : Int) ≤ j → (en : Int) ≤ j' →
      queryGo O f1 s node st en i j = queryGo O f1 s node st en i j' := by
  intro d
  induction d with
  | zero => intro f1 s node st en i j j' hd _ _ _ _; omega
  | succ d ih =>
    intro f1 s node st en i j j' hd h1 hle hj hj'
    obtain ⟨a, rfl⟩ : ∃ a, f1 = a + 1 := ⟨f1 - 1, by omega⟩
    simp only [queryGo]
    by_cases hi : (en : Int) < i
    · rw [if_pos (show j < (st : Int) ∨ (en : Int) < i from Or.inr hi),
        if_pos (show j' < (st : Int) ∨ (en : Int) < i from Or.inr hi)]
    · rw [if_neg (show ¬(j < (st : Int) ∨ (en : Int) < i) by omega),
        if_neg (show ¬(j' < (st : Int) ∨ (en : Int) < i) by omega)]
      by_cases hst' : i ≤ (st : Int)
      · rw [if_pos (show i ≤ (st : Int) ∧ (en : Int) ≤ j by omega),
          if_pos (show i ≤ (st : Int) ∧ (en : Int) ≤ j' by omega)]
      · rw [if_neg (show ¬(i ≤ (st : Int) ∧ (en : Int) ≤ j) by omega),
          if_neg (show ¬(i ≤ (st : Int) ∧ (en : Int) ≤ j') by omega)]
        have hst : st < en := by omega
        have e1 : ∀ (t : SegState Node Op),
            queryGo O a t (left node) st ((st + en) / 2) i j
            = queryGo O a t (left node) st ((st + en) / 2) i j' := by
          intro t
          exact ih a t (left node) st ((st + en) / 2) i j j' (by omega) (by omega)
            (by omega) (by omega) (by omega)
        rw [e1]
        have e2 : ∀ (t : SegState Node Op),
            queryGo O a t (right node) ((st + en) / 2 + 1) en i j
            = queryGo O a t (right node) ((st + en) / 2 + 1) en i j' := by
          intro t
          exact ih a t (right node) ((st + en) / 2 + 1) en i j j' (by omega) (by omega)
            (by omega) hj hj'
        rw [e2]

/-- C3 (amended): `query` and `update` perform no range validation and never
fail: an interval reaching outside `[0, n-1]` behaves exactly as the same
call with the bounds clamped to the valid range, the out-of-range part
contributing nothing. -/
theorem C3_no_range_check (O : SegOps Node Op) (s : SegState Node Op) (op : Op)
    (hn : 1 ≤ s.size) (i j : Int) :
    queryPub O s i j = queryPub O s (max i 0) (min j ((s.size - 1 : Nat) : Int)) ∧
    updatePub O s i j op = updatePub O s (max i 0) (min j ((s.size - 1 : Nat) : Int)) op := by
  have hq1 : queryPub O s i j = queryPub O s (max i 0) j := by
    rcases le_or_lt i 0 with h | h
    · unfold queryPub queryAux
      exact queryGo_low O (s.size - 1 + 1) (s.size - 1 + 1) s 1 0 (s.size - 1) i (max i 0) j
        (by omega) (by omega) (by omega) (by omega) (by omega)
    · rw [max_eq_left (by omega)]
  have hq2 : queryPub O s (max i 0) j
      = queryPub O s (max i 0) (min j ((s.size - 1 : Nat) : Int)) := by
    rcases le_or_lt ((s.size - 1 : Nat) : Int) j with h | h
    · unfold queryPub queryAux
      exact queryGo_high O (s.size - 1 + 1) (s.size - 1 + 1) s 1 0 (s.size - 1) (max i 0) j
        (min j ((s.size - 1 : Nat) : Int)) (by omega) (by omega) (by omega) (by omega)
        (by omega)
    · rw [min_eq_left (by omega)]
  have hu1 : updatePub O s i j op = updatePub O s (max i 0) j op := by
    rcases le_or_lt i 0 with h | h
    · unfold updatePub updateAux
      exact updateGo_low O (s.size - 1 + 1) (s.size - 1 + 1) s 1 0 (s.size - 1) i (max i 0) j
        op (by omega) (by omega) (by omega) (by omega) (by omega)
    · rw [max_eq_left (by omega)]
  have hu2 : updatePub O s (max i 0) j op
      = updatePub O s (max i 0) (min j ((s.size - 1 : Nat) : Int)) op := by
    rcases le_or_lt ((s.size - 1 : Nat) : Int) j with h | h
    · unfold updatePub updateAux
      exact updateGo_high O (s.size - 1 + 1) (s.size - 1 + 1) s 1 0 (s.size - 1) (max i 0) j
        (min j ((s.size - 1 : Nat) : Int)) op (by omega) (by omega) (by omega) (by omega)
        (by omega)
    · rw [min_eq_left (by omega)]
  exact ⟨hq1.trans hq2, hu1.trans hu2⟩

set_option maxRecDepth 40000 in
/-- Counterexample to C3 as stated: on the n = 100 tree, `query(-1, 5)` and
`query(3, 200)` do not fail with any error — they return normally, with the
same aggregate as the clamped queries `query(0, 5)` and `query(3, 99)`. -/
theorem C3_out_of_range_cex :
    (queryPub cOps demo0 (-1) 5).1 = (queryPub cOps demo0 0 5).1 ∧
    (queryPub cOps demo0 (-1) 5).1 = ⟨0, 0⟩ ∧
    (queryPub cOps demo0 3 200).1 = (queryPub cOps demo0 3 99).1 ∧
    (queryPub cOps demo0 3 200).1 = ⟨0, 0⟩ := by
  decide

/-- Witness for the amended C3 at a concrete out-of-range input. -/
theorem C3_no_range_check_witness :
    1 ≤ demo0.size ∧
    (queryPub cOps demo0 (-1) 5
      = queryPub cOps demo0 (max (-1) 0) (min 5 ((demo0.size - 1 : Nat) : Int)) ∧
     updatePub cOps demo0 (-1) 5 ⟨'a', 1⟩
      = updatePub cOps demo0 (max (-1) 0) (min 5 ((demo0.size - 1 : Nat) : Int)) ⟨'a', 1⟩) := by
  refine ⟨by decide, ?_⟩
  exact C3_no_range_check cOps demo0 ⟨'a', 1⟩ (by decide) (-1) 5

/-! ### Claim C4 -/

/-- C4: when `update` reaches a fully-contained non-leaf position that
already holds a pending update `p`, the stored pending update becomes
`p.merge(op)` — "p first, then op" — and the flag stays set; for the
concrete instantiation, applying the merged operation equals applying the
two operations in sequence (for the two documented codes), and composing an
accumulate after a pending overwrite folds the accumulate into the
overwrite's value. -/
theorem C4_pending_merge (O : SegOps Node Op) (s : SegState Node Op)
    (node st en : Nat) (i j : Int) (op : Op)
    (hdis : ¬(j < (st : Int) ∨ (en : Int) < i)) (hleaf : st ≠ en)
    (hcon : i ≤ (st : Int) ∧ (en : Int) ≤ j) (hp : s.hasPending node = true) :
    ((updateAux O s node st en i j op).pending node = O.opMerge (s.pending node) op st en ∧
     (updateAux O s node st en i j op).hasPending node = true) ∧
    (∀ (p q : COp) (x : CNode) (st' en' : Nat),
      (p.code = 's' ∨ p.code = 'a') → (q.code = 's' ∨ q.code = 'a') →
      cApply (cMerge p q st' en') x st' en' = cApply q (cApply p x st' en') st' en') ∧
    (∀ (v c : Int) (st' en' : Nat), cMerge ⟨'s', v⟩ ⟨'a', c⟩ st' en' = ⟨'s', v + c⟩) := by
  refine ⟨⟨?_, ?_⟩, ?_, ?_⟩
  · rw [updateAux_contained O s node st en i j op hdis hleaf hcon]
    exact (setF_same _ _ _).trans (if_pos hp)
  · rw [updateAux_contained O s node st en i j op hdis hleaf hcon]
    exact setF_same _ _ _
  · intro p q x st' en' hpc hqc
    rcases hpc with h1 | h1 <;> rcases hqc with h2 | h2 <;>
      simp [cApply, cMerge, h1, h2] <;> try omega
  · intro v c st' en'
    simp [cMerge]

/-- Witness for C4: after `update(0, 49, set 5)` on the n = 100 tree, node 2
covers `[0, 49]` and holds a pending `set 5`; a further `update(0, 60, add 3)`
reaches it as a fully-contained position. -/
theorem C4_pending_merge_witness :
    (¬((60 : Int) < ((0 : Nat) : Int) ∨ ((49 : Nat) : Int) < (0 : Int))) ∧ (0 : Nat) ≠ 49 ∧
    ((0 : Int) ≤ ((0 : Nat) : Int) ∧ ((49 : Nat) : Int) ≤ (60 : Int)) ∧
    demo1.hasPending 2 = true ∧
    ((updateAux cOps demo1 2 0 49 0 60 ⟨'a', 3⟩).pending 2
        = cOps.opMerge (demo1.pending 2) ⟨'a', 3⟩ 0 49 ∧
      (updateAux cOps demo1 2 0 49 0 60 ⟨'a', 3⟩).hasPending 2 = true) ∧
    (∀ (p q : COp) (x : CNode) (st' en' : Nat),
      (p.code = 's' ∨ p.code = 'a') → (q.code = 's' ∨ q.code = 'a') →
      cApply (cMerge p q st' en') x st' en' = cApply q (cApply p x st' en') st' en') ∧
    (∀ (v c : Int) (st' en' : Nat), cMerge ⟨'s', v⟩ ⟨'a', c⟩ st' en' = ⟨'s', v + c⟩) := by
  refine ⟨by decide, by decide, by decide, by decide, ?_⟩
  exact C4_pending_merge cOps demo1 2 0 49 0 60 ⟨'a', 3⟩ (by decide) (by decide) (by decide)
    (by decide)

/-! ### Claim C9 -/

/-- C9: although `query` mutates the representation through `applyPending`,
it preserves the logical content: repeating the same query returns the same
aggregate, any other query is unaffected, and an update performed after a
query has the same observable effect as the update performed without it. -/
theorem C9_query_preserves_content (O : SegOps Node Op) (ea : Op → Int → Int)
    (L : SegLaws O ea) (s : SegState Node Op) (f : Nat → Int)
    (hn : 1 ≤ s.size) (hrepr : Repr O ea s f 1 0 (s.size - 1))
    (i j : Nat) (hij : i ≤ j) (hjn : j ≤ s.size - 1) :
    ((queryPub O (queryPub O s (i : Int) (j : Int)).2 (i : Int) (j : Int)).1
      = (queryPub O s (i : Int) (j : Int)).1) ∧
    (∀ a b : Nat, a ≤ b → b ≤ s.size - 1 →
      (queryPub O (queryPub O s (i : Int) (j : Int)).2 (a : Int) (b : Int)).1
        = (queryPub O s (a : Int) (b : Int)).1) ∧
    (∀ (i' j' : Int) (op : Op) (a b : Nat), a ≤ b → b ≤ s.size - 1 →
      (queryPub O (updatePub O (queryPub O s (i : Int) (j : Int)).2 i' j' op)
          (a : Int) (b : Int)).1
        = (queryPub O (updatePub O s i' j' op) (a : Int) (b : Int)).1) := by
  obtain ⟨hv0, hr0, hs0⟩ := queryPub_spec O ea L s f hn hrepr i j hij hjn
  have hr0' : Repr O ea (queryPub O s (i : Int) (j : Int)).2 f 1 0
      ((queryPub O s (i : Int) (j : Int)).2.size - 1) := by
    rw [hs0]
    exact hr0
  refine ⟨?_, ?_, ?_⟩
  · obtain ⟨hv1, _, _⟩ := queryPub_spec O ea L (queryPub O s (i : Int) (j : Int)).2 f
      (by omega) hr0' i j hij (by omega)
    rw [hv1, hv0]
  · intro a b hab hbn
    obtain ⟨hv1, _, _⟩ := queryPub_spec O ea L (queryPub O s (i : Int) (j : Int)).2 f
      (by omega) hr0' a b hab (by omega)
    obtain ⟨hv2, _, _⟩ := queryPub_spec O ea L s f hn hrepr a b hab hbn
    rw [hv1, hv2]
  · intro i' j' op a b hab hbn
    obtain ⟨hu1, hu1s⟩ := updatePub_spec O ea L (queryPub O s (i : Int) (j : Int)).2 f
      (by omega) hr0' i' j' op
    obtain ⟨hu2, hu2s⟩ := updatePub_spec O ea L s f hn hrepr i' j' op
    obtain ⟨hw1, _, _⟩ := queryPub_spec O ea L
      (updatePub O (queryPub O s (i : Int) (j : Int)).2 i' j' op)
      (applyOn ea op i' j' f) (by omega) (by rw [hu1s]; exact hu1) a b hab (by omega)
    obtain ⟨hw2, _, _⟩ := queryPub_spec O ea L (updatePub O s i' j' op)
      (applyOn ea op i' j' f) (by omega) (by rw [hu2s]; exact hu2) a b hab (by omega)
    rw [hw1, hw2]

/-- Witness for C9 at the max/add instantiation on a tree of four zeros. -/
theorem C9_query_preserves_content_witness :
    SegLaws mOps mEa ∧ 1 ≤ (segMake mOps 4 (fun _ => 0)).size ∧
    Repr mOps mEa (segMake mOps 4 (fun _ => 0)) (fun _ => 0) 1 0
      ((segMake mOps 4 (fun _ => 0)).size - 1) ∧
    (0 ≤ 2 ∧ 2 ≤ (segMake mOps 4 (fun _ => 0)).size - 1) ∧
    ((queryPub mOps (queryPub mOps (segMake mOps 4 (fun _ => 0))
        ((0 : Nat) : Int) ((2 : Nat) : Int)).2 ((0 : Nat) : Int) ((2 : Nat) : Int)).1
      = (queryPub mOps (segMake mOps 4 (fun _ => 0)) ((0 : Nat) : Int) ((2 : Nat) : Int)).1) := by
  refine ⟨mLaws, by decide, segMake_repr mOps mEa 4 (fun _ => 0) (by norm_num),
    ⟨by norm_num, by decide⟩, ?_⟩
  exact (C9_query_preserves_content mOps mEa mLaws (segMake mOps 4 (fun _ => 0))
    (fun _ => 0) (by decide) (segMake_repr mOps mEa 4 (fun _ => 0) (by norm_num)) 0 2
    (by norm_num) (by decide)).1

/-! ### Claim C6 -/

/-- A list of consecutive sub-intervals partitioning `[i, j]` exactly. -/
def isPartition : Nat → Nat → List (Nat × Nat) → Prop
  | _, _, [] => False
  | i, j, (a, b) :: rest =>
      a = i ∧ a ≤ b ∧ ((rest = [] ∧ b = j) ∨ (isPartition (b + 1) j rest ∧ b < j))

/-- Query every sub-interval in order, threading the mutated state, and
combine the results left-to-right starting from `acc`. -/
def queryFold (O : SegOps Node Op) :
    SegState Node Op → Node → List (Nat × Nat) → Node × SegState Node Op
  | s, acc, [] => (acc, s)
  | s, acc, (a, b) :: rest =>
      queryFold O (queryPub O s (a : Int) (b : Int)).2
        (O.join acc (queryPub O s (a : Int) (b : Int)).1) rest

theorem queryFold_spec (O : SegOps Node Op) (ea : Op → Int → Int) (L : SegLaws O ea) :
    ∀ (ps : List (Nat × Nat)) (s : SegState Node Op) (f : Nat → Int) (acc : Node)
      (i j : Nat),
      1 ≤ s.size → Repr O ea s f 1 0 (s.size - 1) → j ≤ s.size - 1 →
      isPartition i j ps →
      (queryFold O s acc ps).1 = O.join acc (lineAgg O f i j) := by
  intro ps
  induction ps with
  | nil =>
    intro s f acc i j _ _ _ hp
    exact absurd hp (by simp [isPartition])
  | cons hd rest ih =>
    obtain ⟨a, b⟩ := hd
    intro s f acc i j hn hrepr hjn hp
    obtain ⟨rfl, hab, hrest⟩ := hp
    rcases hrest with ⟨hre, hbj⟩ | ⟨hrest, hbj⟩
    · obtain ⟨hv, _, _⟩ := queryPub_spec O ea L s f hn hrepr a b hab (by omega)
      show (queryFold O (queryPub O s (a : Int) (b : Int)).2
        (O.join acc (queryPub O s (a : Int) (b : Int)).1) rest).1
        = O.join acc (lineAgg O f a j)
      rw [hre]
      show O.join acc (queryPub O s (a : Int) (b : Int)).1 = O.join acc (lineAgg O f a j)
      rw [hv, hbj]
    · obtain ⟨hv, hr, hs⟩ := queryPub_spec O ea L s f hn hrepr a b hab (by omega)
      show (queryFold O (queryPub O s (a : Int) (b : Int)).2
        (O.join acc (queryPub O s (a : Int) (b : Int)).1) rest).1
        = O.join acc (lineAgg O f a j)
      rw [ih (queryPub O s (a : Int) (b : Int)).2 f
        (O.join acc (queryPub O s (a : Int) (b : Int)).1) (b + 1) j (by omega)
        (by rw [hs]; exact hr) (by omega) hrest]
      rw [hv, L.join_assoc,
        lineAgg_append O ea L f (j - b + 1) a b j (by omega) hab hbj]

/-- C6: for every decomposition of a valid interval `[i, j]` into
consecutive, non-overlapping sub-intervals covering it, querying the pieces
left-to-right (threading the mutated state) and combining the results equals
`query(i, j)` directly. -/
theorem C6_decomposition (O : SegOps Node Op) (ea : Op → Int → Int) (L : SegLaws O ea)
    (s : SegState Node Op) (f : Nat → Int) (hn : 1 ≤ s.size)
    (hrepr : Repr O ea s f 1 0 (s.size - 1)) (i j : Nat)
    (hij : i ≤ j) (hjn : j ≤ s.size - 1) (ps : List (Nat × Nat))
    (hp : isPartition i j ps) :
    (queryFold O s O.init ps).1 = (queryPub O s (i : Int) (j : Int)).1 := by
  rw [queryFold_spec O ea L ps s f O.init i j hn hrepr hjn hp,
    (queryPub_spec O ea L s f hn hrepr i j hij hjn).1, L.join_init_left]

/-- Witness for C6: partitioning `[0, 3]` into `[0,1], [2,2], [3,3]` on the
max/add instantiation over four zeros. -/
theorem C6_decomposition_witness :
    SegLaws mOps mEa ∧ 1 ≤ (segMake mOps 4 (fun _ => 0)).size ∧
    Repr mOps mEa (segMake mOps 4 (fun _ => 0)) (fun _ => 0) 1 0
      ((segMake mOps 4 (fun _ => 0)).size - 1) ∧
    (0 ≤ 3 ∧ 3 ≤ (segMake mOps 4 (fun _ => 0)).size - 1) ∧
    isPartition 0 3 [(0, 1), (2, 2), (3, 3)] ∧
    (queryFold mOps (segMake mOps 4 (fun _ => 0)) mOps.init [(0, 1), (2, 2), (3, 3)]).1
      = (queryPub mOps (segMake mOps 4 (fun _ => 0)) ((0 : Nat) : Int) ((3 : Nat) : Int)).1 := by
  refine ⟨mLaws, by decide, segMake_repr mOps mEa 4 (fun _ => 0) (by norm_num),
    ⟨by norm_num, by decide⟩, by simp [isPartition], ?_⟩
  exact C6_decomposition mOps mEa mLaws (segMake mOps 4 (fun _ => 0)) (fun _ => 0)
    (by decide) (segMake_repr mOps mEa 4 (fun _ => 0) (by norm_num)) 0 3 (by norm_num)
    (by decide) [(0, 1), (2, 2), (3, 3)] (by simp [isPartition])

/-! ### Claim C5

Reachable positions of the implicit tree, and what a query landing exactly
on such a position's range does and does not touch. -/

theorem inSub_trans {a b k : Nat} (h1 : inSub a b) (h2 : inSub b k) : inSub a k := by
  obtain ⟨d, hd⟩ := h1
  obtain ⟨e, he⟩ := h2
  refine ⟨e + d, ?_⟩
  rw [pow_add, ← Nat.div_div_eq_div_mul, he, hd]

/-- Positions of the implicit tree reachable from the position
`(v0, st0, en0)` by the halving recursion shared by `build`, `query` and
`update`. -/
inductive ReachF (v0 st0 en0 : Nat) : Nat → Nat → Nat → Prop
  | here : ReachF v0 st0 en0 v0 st0 en0
  | chL {v st en : Nat} : ReachF v0 st0 en0 v st en → st < en →
      ReachF v0 st0 en0 (left v) st ((st + en) / 2)
  | chR {v st en : Nat} : ReachF v0 st0 en0 v st en → st < en →
      ReachF v0 st0 en0 (right v) ((st + en) / 2 + 1) en

theorem reachF_bounds {v0 st0 en0 v st en : Nat} (h0 : st0 ≤ en0)
    (h : ReachF v0 st0 en0 v st en) : st0 ≤ st ∧ st ≤ en ∧ en ≤ en0 := by
  induction h with
  | here => exact ⟨le_refl _, h0, le_refl _⟩
  | chL h hst ih => exact ⟨ih.1, by omega, by omega⟩
  | chR h hst ih => exact ⟨by omega, by omega, ih.2.2⟩

theorem reachF_one_le {v0 st0 en0 v st en : Nat} (hv0 : 1 ≤ v0)
    (h : ReachF v0 st0 en0 v st en) : 1 ≤ v := by
  induction h with
  | here => exact hv0
  | chL h hst ih => simp only [left]; omega
  | chR h hst ih => simp only [right]; omega

theorem reachF_inSub {v0 st0 en0 v st en : Nat}
    (h : ReachF v0 st0 en0 v st en) : inSub v0 v := by
  induction h with
  | here => exact inSub_refl v0
  | chL h hst ih =>
    refine inSub_trans ih ⟨1, ?_⟩
    simp only [left, pow_one]
    omega
  | chR h hst ih =>
    refine inSub_trans ih ⟨1, ?_⟩
    simp only [right, pow_one]
    omega

theorem reachF_cases {v0 st0 en0 v st en : Nat} (h : ReachF v0 st0 en0 v st en) :
    (v = v0 ∧ st = st0 ∧ en = en0) ∨
    (st0 < en0 ∧ (ReachF (left v0) st0 ((st0 + en0) / 2) v st en ∨
                  ReachF (right v0) ((st0 + en0) / 2 + 1) en0 v st en)) := by
  induction h with
  | here => exact Or.inl ⟨rfl, rfl, rfl⟩
  | chL h hst ih =>
    rcases ih with ⟨rfl, rfl, rfl⟩ | ⟨h0, hl | hr⟩
    · exact Or.inr ⟨hst, Or.inl ReachF.here⟩
    · exact Or.inr ⟨h0, Or.inl (ReachF.chL hl hst)⟩
    · exact Or.inr ⟨h0, Or.inr (ReachF.chL hr hst)⟩
  | chR h hst ih =>
    rcases ih with ⟨rfl, rfl, rfl⟩ | ⟨h0, hl | hr⟩
    · exact Or.inr ⟨hst, Or.inr ReachF.here⟩
    · exact Or.inr ⟨h0, Or.inl (ReachF.chR hl hst)⟩
    · exact Or.inr ⟨h0, Or.inr (ReachF.chR hr hst)⟩

/-- An update that immediately hits the disjoint, leaf or fully-contained
branch writes at most the arenas at `node` itself. -/
theorem updateAux_node_only (O : SegOps Node Op) (s : SegState Node Op)
    (node st en : Nat) (i j : Int) (op : Op)
    (h : (j < (st : Int) ∨ (en : Int) < i) ∨ st = en ∨ (i ≤ (st : Int) ∧ (en : Int) ≤ j)) :
    ∀ k, k ≠ node → agreeAt (updateAux O s node st en i j op) s k := by
  intro k hk
  by_cases hdis : j < (st : Int) ∨ (en : Int) < i
  · rw [updateAux_disjoint O s node st en i j op hdis]
    exact agreeAt_refl s k
  · by_cases hleaf : st = en
    · rw [updateAux_leaf O s node st en i j op hdis hleaf]
      exact ⟨setF_other _ node k _ hk, rfl, rfl⟩
    · have hcon : i ≤ (st : Int) ∧ (en : Int) ≤ j := by
        rcases h with h | h | h
        · exact absurd h hdis
        · exact absurd h hleaf
        · exact h
      rw [updateAux_contained O s node st en i j op hdis hleaf hcon]
      exact ⟨setF_other _ node k _ hk, setF_other _ node k _ hk, setF_other _ node k _ hk⟩

/-- `applyPending` writes at most the arenas at `node` and its two child
indices. -/
theorem applyPending_writes (O : SegOps Node Op) (s : SegState Node Op)
    (node st en : Nat) (hle : st ≤ en) :
    ∀ k, k ≠ node → k ≠ left node → k ≠ right node →
      agreeAt (applyPending O s node st en) s k := by
  intro k hk0 hkl hkr
  unfold applyPending
  by_cases hp : s.hasPending node
  · simp only [hp, if_true]
    have h1 := updateAux_node_only O s (left node) st ((st + en) / 2) (st : Int) (en : Int)
      (s.pending node) (by omega) k hkl
    have h2 := updateAux_node_only O
      (updateAux O s (left node) st ((st + en) / 2) (st : Int) (en : Int) (s.pending node))
      (right node) ((st + en) / 2 + 1) en (st : Int) (en : Int)
      ((updateAux O s (left node) st ((st + en) / 2) (st : Int) (en : Int)
        (s.pending node)).pending node) (by omega) k hkr
    have h3 := agreeAt_trans h2 h1
    exact ⟨h3.1, (setF_other _ node k _ hk0).trans h3.2.1, h3.2.2⟩
  · simp only [hp, if_false]
    exact agreeAt_refl s k

/-- A query whose interval contains the range of a reachable position `v`
never touches any arena index strictly below `v`: pushdowns happen only on
the path above `v`. -/
theorem queryAux_below (O : SegOps Node Op) :
    ∀ (d : Nat) (s : SegState Node Op) (v0 st0 en0 v st en : Nat) (i j : Int) (k : Nat),
      en0 - st0 < d → st0 ≤ en0 → 1 ≤ v0 →
      ReachF v0 st0 en0 v st en →
      i ≤ (st : Int) → (en : Int) ≤ j →
      (inSub (left v) k ∨ inSub (right v) k) →
      agreeAt (queryAux O s v0 st0 en0 i j).2 s k := by
  intro d
  induction d with
  | zero => intro s v0 st0 en0 v st en i j k hd _ _ _ _ _ _; omega
  | succ d ih =>
    intro s v0 st0 en0 v st en i j k hd hle hv0 hreach hi hj hk
    have hvv : 1 ≤ v := reachF_one_le hv0 hreach
    have hkv : inSub v k := by
      rcases hk with hk | hk
      · exact inSub_of_left hk
      · exact inSub_of_right hk
    have hk2v : 2 * v ≤ k := by
      rcases hk with hk | hk
      · have := inSub_le hk
        simp only [left] at this
        omega
      · have := inSub_le hk
        simp only [right] at this
        omega
    by_cases hdis : j < (st0 : Int) ∨ (en0 : Int) < i
    · rw [queryAux_disjoint O s v0 st0 en0 i j hdis]
      exact agreeAt_refl s k
    · by_cases hcon : i ≤ (st0 : Int) ∧ (en0 : Int) ≤ j
      · rw [queryAux_contained O s v0 st0 en0 i j hdis hcon]
        exact agreeAt_refl s k
      · have hst0 : st0 < en0 := branch_lt hdis hcon
        rw [queryAux_split O s v0 st0 en0 i j hdis hcon]
        rcases reachF_cases hreach with ⟨rfl, rfl, rfl⟩ | ⟨_, hsub⟩
        · exact absurd ⟨hi, hj⟩ hcon
        · set s1 := applyPending O s v0 st0 en0 with hs1
          set q1 := queryAux O s1 (left v0) st0 ((st0 + en0) / 2) i j with hq1
          set q2 := queryAux O q1.2 (right v0) ((st0 + en0) / 2 + 1) en0 i j with hq2
          show agreeAt q2.2 s k
          have hvsub : inSub (left v0) v ∨ inSub (right v0) v := by
            rcases hsub with hs | hs
            · exact Or.inl (reachF_inSub hs)
            · exact Or.inr (reachF_inSub hs)
          have hkc : inSub (left v0) k ∨ inSub (right v0) k := by
            rcases hvsub with hs | hs
            · exact Or.inl (inSub_trans hs hkv)
            · exact Or.inr (inSub_trans hs hkv)
          have hkn0 : k ≠ v0 := by
            intro hkk
            rcases hkc with hc | hc
            · have := inSub_le hc
              simp only [left] at this
              omega
            · have := inSub_le hc
              simp only [right] at this
              omega
          have hkvge : v ≤ k := inSub_le hkv
          have hknl : k ≠ left v0 := by
            intro hkk
            rcases hvsub with hs | hs
            · have hvge := inSub_le hs
              simp only [left] at hvge hkk
              omega
            · have hvge := inSub_le hs
              simp only [left, right] at hvge hkk
              omega
          have hknr : k ≠ right v0 := by
            intro hkk
            rcases hvsub with hs | hs
            · have hvge := inSub_le hs
              simp only [left, right] at hvge hkk
              omega
            · have hvge := inSub_le hs
              simp only [right] at hvge hkk
              omega
          have ha1 : agreeAt s1 s k := applyPending_writes O s v0 st0 en0 (by omega)
            k hkn0 hknl hknr
          have hlv : (1 : Nat) ≤ left v0 := by
            simp only [left]
            omega
          have hrv : (1 : Nat) ≤ right v0 := by
            simp only [right]
            omega
          rcases hsub with hs | hs
          · have hkl : inSub (left v0) k := inSub_trans (reachF_inSub hs) hkv
            have ha2 : agreeAt q1.2 s1 k :=
              ih s1 (left v0) st0 ((st0 + en0) / 2) v st en i j k (by omega) (by omega)
                hlv hs hi hj hk
            have ha3 : agreeAt q2.2 q1.2 k := by
              refine (queryAux_untouched O (en0 - ((st0 + en0) / 2 + 1) + 1) q1.2
                (right v0) ((st0 + en0) / 2 + 1) en0 i j (by omega) hrv).2 k ?_
              intro hc
              exact inSub_left_right_disjoint hv0 hkl hc
            exact agreeAt_trans ha3 (agreeAt_trans ha2 ha1)
          · have hkr : inSub (right v0) k := inSub_trans (reachF_inSub hs) hkv
            have ha2 : agreeAt q1.2 s1 k := by
              refine (queryAux_untouched O ((st0 + en0) / 2 - st0 + 1) s1
                (left v0) st0 ((st0 + en0) / 2) i j (by omega) hlv).2 k ?_
              intro hc
              exact inSub_left_right_disjoint hv0 hc hkr
            have ha3 : agreeAt q2.2 q1.2 k :=
              ih q1.2 (right v0) ((st0 + en0) / 2 + 1) en0 v st en i j k (by omega)
                (by omega) hrv hs hi hj hk
            exact agreeAt_trans ha3 (agreeAt_trans ha2 ha1)

/-- Counterexample to C5 as stated: on a two-element min/max tree of zeros,
`update(0, 1, add 1)` fully contains the leaf position 2 (range `[0, 0]`),
yet that position's stored aggregate stays `(0, 0)` — it does not reflect
the update, which is only pending at the root. -/
theorem C5_stale_below_cex :
    (updatePub cOps (segMake cOps 2 (fun _ => 0)) 0 1 ⟨'a', 1⟩).tree 2 = ⟨0, 0⟩ ∧
    (updatePub cOps (segMake cOps 2 (fun _ => 0)) 0 1 ⟨'a', 1⟩).hasPending 1 = true ∧
    cApply ⟨'a', 1⟩ (⟨0, 0⟩ : CNode) 0 0 = ⟨1, 1⟩ ∧
    (updatePub cOps (segMake cOps 2 (fun _ => 0)) 0 1 ⟨'a', 1⟩).tree 2
      ≠ cApply ⟨'a', 1⟩ (⟨0, 0⟩ : CNode) 0 0 := by
  decide

/-- C5 (amended): a position's stored aggregate reflects exactly the updates
applied at it or pushed down into it — equivalently, every reachable state
satisfies the representation invariant, under which each position's
aggregate is correct for the current logical array except for updates still
pending strictly above it.  Consequently a query landing exactly on a
reachable position's range returns the correct aggregate for the current
logical array, while touching no arena index strictly below that position
(pushdowns happen only on the path above it). -/
theorem C5_invariant_exact_query (O : SegOps Node Op) (ea : Op → Int → Int)
    (L : SegLaws O ea) (s : SegState Node Op) (f : Nat → Int)
    (hn : 1 ≤ s.size) (hrepr : Repr O ea s f 1 0 (s.size - 1))
    (v st' en' : Nat) (hreach : ReachF 1 0 (s.size - 1) v st' en') :
    (queryPub O s (st' : Int) (en' : Int)).1 = rangeAgg O f st' en' ∧
    (∀ k, inSub (left v) k ∨ inSub (right v) k →
      agreeAt (queryPub O s (st' : Int) (en' : Int)).2 s k) := by
  obtain ⟨hb1, hb2, hb3⟩ := reachF_bounds (by omega) hreach
  constructor
  · rw [(queryPub_spec O ea L s f hn hrepr st' en' hb2 hb3).1]
    exact (rangeAgg_eq_lineAgg O ea L f (en' - st' + 1) st' en' (by omega) hb2).symm
  · intro k hk
    exact queryAux_below O (s.size - 1 + 1) s 1 0 (s.size - 1) v st' en'
      (st' : Int) (en' : Int) k (by omega) (by omega) (le_refl 1) hreach
      (by omega) (by omega) hk

/-- Witness for the amended C5: the max/add instantiation over two zeros,
with the reachable leaf position 2 covering `[0, 0]`. -/
theorem C5_invariant_exact_query_witness :
    SegLaws mOps mEa ∧ 1 ≤ (segMake mOps 2 (fun _ => 0)).size ∧
    Repr mOps mEa (segMake mOps 2 (fun _ => 0)) (fun _ => 0) 1 0
      ((segMake mOps 2 (fun _ => 0)).size - 1) ∧
    ReachF 1 0 ((segMake mOps 2 (fun _ => 0)).size - 1) 2 0 0 ∧
    ((queryPub mOps (segMake mOps 2 (fun _ => 0)) ((0 : Nat) : Int) ((0 : Nat) : Int)).1
        = rangeAgg mOps (fun _ => 0) 0 0 ∧
     (∀ k, inSub (left 2) k ∨ inSub (right 2) k →
       agreeAt (queryPub mOps (segMake mOps 2 (fun _ => 0))
         ((0 : Nat) : Int) ((0 : Nat) : Int)).2 (segMake mOps 2 (fun _ => 0)) k)) := by
  have hreach : ReachF 1 0 ((segMake mOps 2 (fun _ => 0)).size - 1) 2 0 0 :=
    ReachF.chL ReachF.here (by decide)
  refine ⟨mLaws, by decide, segMake_repr mOps mEa 2 (fun _ => 0) (by norm_num), hreach, ?_⟩
  exact C5_invariant_exact_query mOps mEa mLaws (segMake mOps 2 (fun _ => 0)) (fun _ => 0)
    (by decide) (segMake_repr mOps mEa 2 (fun _ => 0) (by norm_num)) 2 0 0 hreach

/-! ### Claim C7

The constructors perform no validation: `SegTree(int n)` just resizes the
arenas and `build(arr)` starts the recursion on `(1, 0, n - 1)`.  The seed
is a raw `int*` with no length to compare against `n`.  For `n = 0` the
recursion `build(arr, node, st, end)` runs on int ranges `(0, -1)` and never
terminates.  `buildTerm` is its fuel-bounded termination skeleton over C++
`int` arithmetic (truncating division, as in C++): it returns `some ()`
exactly when the recursion tree is exhausted within the given depth. -/

def buildTerm : Nat → Int → Int → Option Unit
  | 0, _, _ => none
  | fuel+1, st, en =>
    if st = en then some ()
    else
      match buildTerm fuel st (Int.div (st + en) 2) with
      | none => none
      | some _ => buildTerm fuel (Int.div (st + en) 2 + 1) en

theorem buildTerm_one_zero : ∀ fuel, buildTerm fuel 1 0 = none := by
  intro fuel
  induction fuel with
  | zero => rfl
  | succ fuel ih =>
    show buildTerm (fuel + 1) 1 0 = none
    simp only [buildTerm]
    rw [if_neg (by norm_num)]
    rw [show Int.div (1 + 0) 2 = 0 by decide, ih]

theorem buildTerm_one_negone : ∀ fuel, buildTerm fuel 1 (-1) = none := by
  intro fuel
  cases fuel with
  | zero => rfl
  | succ fuel =>
    show buildTerm (fuel + 1) 1 (-1) = none
    simp only [buildTerm]
    rw [if_neg (by norm_num)]
    rw [show Int.div (1 + -1) 2 = 0 by decide, buildTerm_one_zero fuel]

theorem buildTerm_zero_negone : ∀ fuel, buildTerm fuel 0 (-1) = none := by
  intro fuel
  cases fuel with
  | zero => rfl
  | succ fuel =>
    show buildTerm (fuel + 1) 0 (-1) = none
    simp only [buildTerm]
    rw [if_neg (by norm_num)]
    rw [show Int.div (0 + -1) 2 = 0 by decide]
    cases fuel with
    | zero => rfl
    | succ fuel =>
      rw [show buildTerm (fuel + 1) 0 0 = some () by rfl]
      exact buildTerm_one_negone (fuel + 1)

/-- Counterexample to C7 as stated: construction with `n = 0` does not fail
with an `InvalidSizeError` — the build recursion on the int range `(0, -1)`
simply never terminates (here: exhausts a depth budget of 50 without
returning). -/
theorem C7_no_size_check_cex : buildTerm 50 0 (-1) = none := by
  decide

/-- C7 (amended): construction performs no validation — there is no
`InvalidSizeError`, the raw-pointer seed has no length to compare, and with
`n = 0` the build recursion never terminates instead of failing cleanly
(for `n < 0` the C++ `vector::resize(4n+1)` aborts before `build` runs);
for n ≥ 1 with any seed, construction builds the aggregate of the seed for
every implicit range by recursive halving down to single elements, which is
exactly the representation invariant. -/
theorem C7_construction (O : SegOps Node Op) (ea : Op → Int → Int)
    (n : Nat) (arr : Nat → Int) (hn : 1 ≤ n) :
    Repr O ea (segMake O n arr) arr 1 0 (n - 1) ∧
    (segMake O n arr).size = n ∧
    (∀ fuel, buildTerm fuel 0 (-1) = none) := by
  exact ⟨segMake_repr O ea n arr hn, segMake_size O n arr hn, buildTerm_zero_negone⟩

/-- Witness for the amended C7 at `n = 3` on the max/add instantiation. -/
theorem C7_construction_witness :
    1 ≤ 3 ∧
    (Repr mOps mEa (segMake mOps 3 (fun _ => 0)) (fun _ => 0) 1 0 (3 - 1) ∧
     (segMake mOps 3 (fun _ => 0)).size = 3 ∧
     (∀ fuel, buildTerm fuel 0 (-1) = none)) := by
  refine ⟨by norm_num, ?_⟩
  exact C7_construction mOps mEa 3 (fun _ => 0) (by norm_num)

/-! ### Claim C8

Exact operation counts.  `updateCost` (resp. `queryCost`) counts the number
of `update` (resp. `query`) calls executed by `update(node, st, end, i, j, op)`
(resp. `query`), including the two `update` calls performed by each
`applyPending` pushdown, threading the intermediate states exactly as the
code does.  `buildCost` counts `build` calls. -/

def updateCost (O : SegOps Node Op) (s : SegState Node Op) (node st en : Nat)
    (i j : Int) (op : Op) : Nat :=
  if hdis : j < (st : Int) ∨ (en : Int) < i then 1
  else if hleaf : st = en then 1
  else if hcon : i ≤ (st : Int) ∧ (en : Int) ≤ j then 1
  else
    have hst : st < en := branch_lt hdis hcon
    1 + (if s.hasPending node then
          updateCost O s (left node) st ((st + en) / 2) (st : Int) (en : Int)
            (s.pending node)
          + updateCost O
              (updateAux O s (left node) st ((st + en) / 2) (st : Int) (en : Int)
                (s.pending node))
              (right node) ((st + en) / 2 + 1) en (st : Int) (en : Int)
              ((updateAux O s (left node) st ((st + en) / 2) (st : Int) (en : Int)
                (s.pending node)).pending node)
        else 0)
      + (if i ≤ (((st + en) / 2 : Nat) : Int) then
          updateCost O (applyPending O s node st en) (left node) st ((st + en) / 2) i j op
        else 0)
      + (if (((st + en) / 2 : Nat) : Int) < j then
          updateCost O
            (if i ≤ (((st + en) / 2 : Nat) : Int) then
              updateAux O (applyPending O s node st en) (left node) st ((st + en) / 2) i j op
            else applyPending O s node st en)
            (right node) ((st + en) / 2 + 1) en i j op
        else 0)
termination_by en - st
decreasing_by
  all_goals omega

def queryCost (O : SegOps Node Op) (s : SegState Node Op) (node st en : Nat)
    (i j : Int) : Nat :=
  if hdis : j < (st : Int) ∨ (en : Int) < i then 1
  else if hcon : i ≤ (st : Int) ∧ (en : Int) ≤ j then 1
  else
    have hst : st < en := branch_lt hdis hcon
    1 + (if s.hasPending node then
          updateCost O s (left node) st ((st + en) / 2) (st : Int) (en : Int)
            (s.pending node)
          + updateCost O
              (updateAux O s (left node) st ((st + en) / 2) (st : Int) (en : Int)
                (s.pending node))
              (right node) ((st + en) / 2 + 1) en (st : Int) (en : Int)
              ((updateAux O s (left node) st ((st + en) / 2) (st : Int) (en : Int)
                (s.pending node)).pending node)
        else 0)
      + queryCost O (applyPending O s node st en) (left node) st ((st + en) / 2) i j
      + queryCost O
          (queryAux O (applyPending O s node st en) (left node) st ((st + en) / 2) i j).2
          (right node) ((st + en) / 2 + 1) en i j
termination_by en - st
decreasing_by
  all_goals omega

def buildCost (st en : Nat) : Nat :=
  if h : en ≤ st then 1
  else 1 + buildCost st ((st + en) / 2) + buildCost ((st + en) / 2 + 1) en
termination_by en - st
decreasing_by
  all_goals omega

theorem updateCost_one (O : SegOps Node Op) (s : SegState Node Op)
    (node st en : Nat) (i j : Int) (op : Op)
    (h : (j < (st : Int) ∨ (en : Int) < i) ∨ st = en ∨ (i ≤ (st : Int) ∧ (en : Int) ≤ j)) :
    updateCost O s node st en i j op = 1 := by
  unfold updateCost
  by_cases hdis : j < (st : Int) ∨ (en : Int) < i
  · rw [dif_pos hdis]
  · rw [dif_neg hdis]
    by_cases hleaf : st = en
    · rw [dif_pos hleaf]
    · rw [dif_neg hleaf]
      have hcon : i ≤ (st : Int) ∧ (en : Int) ≤ j := by
        rcases h with h | h | h
        · exact absurd h hdis
        · exact absurd h hleaf
        · exact h
      rw [dif_pos hcon]

/-- The two sub-updates of a pushdown each hit the leaf or fully-contained
branch immediately, so the pushdown performs at most two calls. -/
theorem pushCost_le (O : SegOps Node Op) (s : SegState Node Op)
    (node st en : Nat) (hst : st < en) :
    (if s.hasPending node then
      updateCost O s (left node) st ((st + en) / 2) (st : Int) (en : Int) (s.pending node)
      + updateCost O
          (updateAux O s (left node) st ((st + en) / 2) (st : Int) (en : Int)
            (s.pending node))
          (right node) ((st + en) / 2 + 1) en (st : Int) (en : Int)
          ((updateAux O s (left node) st ((st + en) / 2) (st : Int) (en : Int)
            (s.pending node)).pending node)
      else 0) ≤ 2 := by
  by_cases hp : s.hasPending node
  · rw [if_pos hp]
    rw [updateCost_one O s (left node) st ((st + en) / 2) (st : Int) (en : Int)
      (s.pending node) (by omega)]
    rw [updateCost_one O _ (right node) ((st + en) / 2 + 1) en (st : Int) (en : Int)
      _ (by omega)]
  · rw [if_neg hp]
    omega

theorem buildCost_linear :
    ∀ (d st en : Nat), en - st < d → st ≤ en → buildCost st en = 2 * (en - st) + 1 := by
  intro d
  induction d with
  | zero => intro st en hd _; omega
  | succ d ih =>
    intro st en hd hle
    unfold buildCost
    by_cases h : en ≤ st
    · rw [dif_pos h]
      omega
    · rw [dif_neg h]
      rw [ih st ((st + en) / 2) (by omega) (by omega),
        ih ((st + en) / 2 + 1) en (by omega) (by omega)]
      omega

theorem clog_child_left {st en : Nat} (hst : st < en) :
    Nat.clog 2 ((st + en) / 2 - st + 1) + 1 = Nat.clog 2 (en - st + 1) := by
  rw [Nat.clog_of_two_le (by norm_num) (by omega : 2 ≤ en - st + 1)]
  congr 2
  omega

theorem clog_child_right {st en : Nat} (hst : st < en) :
    Nat.clog 2 (en - ((st + en) / 2 + 1) + 1) + 1 ≤ Nat.clog 2 (en - st + 1) := by
  rw [Nat.clog_of_two_le (by norm_num) (by omega : 2 ≤ en - st + 1)]
  have h := Nat.clog_mono_right 2
    (show en - ((st + en) / 2 + 1) + 1 ≤ (en - st + 1 + 2 - 1) / 2 by omega)
  omega

theorem updateCost_split (O : SegOps Node Op) (s : SegState Node Op)
    (node st en : Nat) (i j : Int) (op : Op)
    (hdis : ¬(j < (st : Int) ∨ (en : Int) < i)) (hleaf : st ≠ en)
    (hcon : ¬(i ≤ (st : Int) ∧ (en : Int) ≤ j)) :
    updateCost O s node st en i j op
      = 1 + (if s.hasPending node then
          updateCost O s (left node) st ((st + en) / 2) (st : Int) (en : Int)
            (s.pending node)
          + updateCost O
              (updateAux O s (left node) st ((st + en) / 2) (st : Int) (en : Int)
                (s.pending node))
              (right node) ((st + en) / 2 + 1) en (st : Int) (en : Int)
              ((updateAux O s (left node) st ((st + en) / 2) (st : Int) (en : Int)
                (s.pending node)).pending node)
        else 0)
      + (if i ≤ (((st + en) / 2 : Nat) : Int) then
          updateCost O (applyPending O s node st en) (left node) st ((st + en) / 2) i j op
        else 0)
      + (if (((st + en) / 2 : Nat) : Int) < j then
          updateCost O
            (if i ≤ (((st + en) / 2 : Nat) : Int) then
              updateAux O (applyPending O s node st en) (left node) st ((st + en) / 2) i j op
            else applyPending O s node st en)
            (right node) ((st + en) / 2 + 1) en i j op
        else 0) := by
  conv_lhs => unfold updateCost
  rw [dif_neg hdis, dif_neg hleaf, dif_neg hcon]

theorem queryCost_one (O : SegOps Node Op) (s : SegState Node Op)
    (node st en : Nat) (i j : Int)
    (h : (j < (st : Int) ∨ (en : Int) < i) ∨ (i ≤ (st : Int) ∧ (en : Int) ≤ j)) :
    queryCost O s node st en i j = 1 := by
  unfold queryCost
  by_cases hdis : j < (st : Int) ∨ (en : Int) < i
  · rw [dif_pos hdis]
  · rw [dif_neg hdis]
    have hcon : i ≤ (st : Int) ∧ (en : Int) ≤ j := by
      rcases h with h | h
      · exact absurd h hdis
      · exact h
    rw [dif_pos hcon]

theorem queryCost_split (O : SegOps Node Op) (s : SegState Node Op)
    (node st en : Nat) (i j : Int)
    (hdis : ¬(j < (st : Int) ∨ (en : Int) < i))
    (hcon : ¬(i ≤ (st : Int) ∧ (en : Int) ≤ j)) :
    queryCost O s node st en i j
      = 1 + (if s.hasPending node then
          updateCost O s (left node) st ((st + en) / 2) (st : Int) (en : Int)
            (s.pending node)
          + updateCost O
              (updateAux O s (left node) st ((st + en) / 2) (st : Int) (en : Int)
                (s.pending node))
              (right node) ((st + en) / 2 + 1) en (st : Int) (en : Int)
              ((updateAux O s (left node) st ((st + en) / 2) (st : Int) (en : Int)
                (s.pending node)).pending node)
        else 0)
      + queryCost O (applyPending O s node st en) (left node) st ((st + en) / 2) i j
      + queryCost O
          (queryAux O (applyPending O s node st en) (left node) st ((st + en) / 2) i j).2
          (right node) ((st + en) / 2 + 1) en i j := by
  conv_lhs => unfold queryCost
  rw [dif_neg hdis, dif_neg hcon]

theorem updateCost_left_le (O : SegOps Node Op) :
    ∀ (d : Nat) (s : SegState Node Op) (node st en : Nat) (i j : Int) (op : Op),
      en - st < d → st ≤ en → i ≤ (st : Int) →
      updateCost O s node st en i j op ≤ 4 * Nat.clog 2 (en - st + 1) + 1 := by
  intro d
  induction d with
  | zero => intro s node st en i j op hd _ _; omega
  | succ d ih =>
    intro s node st en i j op hd hle hi
    by_cases hdis : j < (st : Int) ∨ (en : Int) < i
    · rw [updateCost_one O s node st en i j op (Or.inl hdis)]
      omega
    · by_cases hleaf : st = en
      · rw [updateCost_one O s node st en i j op (Or.inr (Or.inl hleaf))]
        omega
      · by_cases hcon : i ≤ (st : Int) ∧ (en : Int) ≤ j
        · rw [updateCost_one O s node st en i j op (Or.inr (Or.inr hcon))]
          omega
        · have hst : st < en := branch_lt hdis hcon
          rw [updateCost_split O s node st en i j op hdis hleaf hcon]
          have hpush := pushCost_le O s node st en hst
          have hclL := clog_child_left hst
          have hclR := clog_child_right hst
          rw [if_pos (show i ≤ (((st + en) / 2 : Nat) : Int) by omega)]
          by_cases hjm : (((st + en) / 2 : Nat) : Int) < j
          · rw [if_pos hjm]
            rw [updateCost_one O _ (left node) st ((st + en) / 2) i j op
              (Or.inr (Or.inr ⟨by omega, by omega⟩))]
            have hc3 := ih (if i ≤ (((st + en) / 2 : Nat) : Int) then
                updateAux O (applyPending O s node st en) (left node) st ((st + en) / 2) i j op
              else applyPending O s node st en)
              (right node) ((st + en) / 2 + 1) en i j op (by omega)
              (by omega) (by omega)
            omega
          · rw [if_neg hjm]
            have hc2 := ih (applyPending O s node st en) (left node) st ((st + en) / 2)
              i j op (by omega) (by omega) hi
            omega

theorem updateCost_right_le (O : SegOps Node Op) :
    ∀ (d : Nat) (s : SegState Node Op) (node st en : Nat) (i j : Int) (op : Op),
      en - st < d → st ≤ en → (en : Int) ≤ j →
      updateCost O s node st en i j op ≤ 4 * Nat.clog 2 (en - st + 1) + 1 := by
  intro d
  induction d with
  | zero => intro s node st en i j op hd _ _; omega
  | succ d ih =>
    intro s node st en i j op hd hle hj
    by_cases hdis : j < (st : Int) ∨ (en : Int) < i
    · rw [updateCost_one O s node st en i j op (Or.inl hdis)]
      omega
    · by_cases hleaf : st = en
      · rw [updateCost_one O s node st en i j op (Or.inr (Or.inl hleaf))]
        omega
      · by_cases hcon : i ≤ (st : Int) ∧ (en : Int) ≤ j
        · rw [updateCost_one O s node st en i j op (Or.inr (Or.inr hcon))]
          omega
        · have hst : st < en := branch_lt hdis hcon
          rw [updateCost_split O s node st en i j op hdis hleaf hcon]
          have hpush := pushCost_le O s node st en hst
          have hclL := clog_child_left hst
          have hclR := clog_child_right hst
          rw [if_pos (show (((st + en) / 2 : Nat) : Int) < j by omega)]
          by_cases him : i ≤ (((st + en) / 2 : Nat) : Int)
          · rw [if_pos him]
            rw [updateCost_one O _ (right node) ((st + en) / 2 + 1) en i j op
              (Or.inr (Or.inr ⟨by omega, by omega⟩))]
            have hc2 := ih (applyPending O s node st en) (left node) st ((st + en) / 2)
              i j op (by omega) (by omega) (by omega)
            omega
          · rw [if_neg him]
            have hc3 := ih (if i ≤ (((st + en) / 2 : Nat) : Int) then
                updateAux O (applyPending O s node st en) (left node) st ((st + en) / 2) i j op
              else applyPending O s node st en)
              (right node) ((st + en) / 2 + 1) en i j op (by omega)
              (by omega) hj
            omega

theorem updateCost_le (O : SegOps Node Op) :
    ∀ (d : Nat) (s : SegState Node Op) (node st en : Nat) (i j : Int) (op : Op),
      en - st < d → st ≤ en →
      updateCost O s node st en i j op ≤ 8 * Nat.clog 2 (en - st + 1) + 3 := by
  intro d
  induction d with
  | zero => intro s node st en i j op hd _; omega
  | succ d ih =>
    intro s node st en i j op hd hle
    by_cases hi : i ≤ (st : Int)
    · have := updateCost_left_le O (en - st + 1) s node st en i j op (by omega) hle hi
      omega
    · by_cases hj : (en : Int) ≤ j
      · have := updateCost_right_le O (en - st + 1) s node st en i j op (by omega) hle hj
        omega
      · by_cases hdis : j < (st : Int) ∨ (en : Int) < i
        · rw [updateCost_one O s node st en i j op (Or.inl hdis)]
          omega
        · by_cases hleaf : st = en
          · rw [updateCost_one O s node st en i j op (Or.inr (Or.inl hleaf))]
            omega
          · have hcon : ¬(i ≤ (st : Int) ∧ (en : Int) ≤ j) := by omega
            have hst : st < en := branch_lt hdis hcon
            rw [updateCost_split O s node st en i j op hdis hleaf hcon]
            have hpush := pushCost_le O s node st en hst
            have hclL := clog_child_left hst
            have hclR := clog_child_right hst
            have hpos := Nat.clog_pos (show (1 : Nat) < 2 by norm_num)
              (show 2 ≤ en - st + 1 by omega)
            by_cases him : i ≤ (((st + en) / 2 : Nat) : Int)
            · rw [if_pos him]
              by_cases hjm : (((st + en) / 2 : Nat) : Int) < j
              · rw [if_pos hjm]
                have hc2 := updateCost_right_le O ((st + en) / 2 - st + 1)
                  (applyPending O s node st en) (left node) st ((st + en) / 2) i j op
                  (by omega) (by omega) (by omega)
                have hc3 := updateCost_left_le O (en - ((st + en) / 2 + 1) + 1)
                  (if i ≤ (((st + en) / 2 : Nat) : Int) then
                updateAux O (applyPending O s node st en) (left node) st ((st + en) / 2) i j op
              else applyPending O s node st en)
                  (right node) ((st + en) / 2 + 1) en i j op (by omega) (by omega)
                  (by omega)
                omega
              · rw [if_neg hjm]
                have hc2 := ih (applyPending O s node st en) (left node) st ((st + en) / 2)
                  i j op (by omega) (by omega)
                omega
            · rw [if_neg him]
              by_cases hjm : (((st + en) / 2 : Nat) : Int) < j
              · rw [if_pos hjm]
                have hc3 := ih (if i ≤ (((st + en) / 2 : Nat) : Int) then
                updateAux O (applyPending O s node st en) (left node) st ((st + en) / 2) i j op
              else applyPending O s node st en)
                  (right node) ((st + en) / 2 + 1) en i j op (by omega)
                  (by omega)
                omega
              · rw [if_neg hjm]
                omega

theorem queryCost_left_le (O : SegOps Node Op) :
    ∀ (d : Nat) (s : SegState Node Op) (node st en : Nat) (i j : Int),
      en - st < d → st ≤ en → i ≤ (st : Int) →
      queryCost O s node st en i j ≤ 4 * Nat.clog 2 (en - st + 1) + 1 := by
  intro d
  induction d with
  | zero => intro s node st en i j hd _ _; omega
  | succ d ih =>
    intro s node st en i j hd hle hi
    by_cases hdis : j < (st : Int) ∨ (en : Int) < i
    · rw [queryCost_one O s node st en i j (Or.inl hdis)]
      omega
    · by_cases hcon : i ≤ (st : Int) ∧ (en : Int) ≤ j
      · rw [queryCost_one O s node st en i j (Or.inr hcon)]
        omega
      · have hst : st < en := branch_lt hdis hcon
        rw [queryCost_split O s node st en i j hdis hcon]
        have hpush := pushCost_le O s node st en hst
        have hclL := clog_child_left hst
        have hclR := clog_child_right hst
        by_cases hjm : (((st + en) / 2 : Nat) : Int) < j
        · rw [queryCost_one O (applyPending O s node st en) (left node) st ((st + en) / 2)
            i j (Or.inr ⟨by omega, by omega⟩)]
          have hc3 := ih
            (queryAux O (applyPending O s node st en) (left node) st ((st + en) / 2) i j).2
            (right node) ((st + en) / 2 + 1) en i j (by omega) (by omega) (by omega)
          omega
        · rw [queryCost_one O
            (queryAux O (applyPending O s node st en) (left node) st ((st + en) / 2) i j).2
            (right node) ((st + en) / 2 + 1) en i j (Or.inl (Or.inl (by omega)))]
          have hc2 := ih (applyPending O s node st en) (left node) st ((st + en) / 2) i j
            (by omega) (by omega) hi
          omega

theorem queryCost_right_le (O : SegOps Node Op) :
    ∀ (d : Nat) (s : SegState Node Op) (node st en : Nat) (i j : Int),
      en - st < d → st ≤ en → (en : Int) ≤ j →
      queryCost O s node st en i j ≤ 4 * Nat.clog 2 (en - st + 1) + 1 := by
  intro d
  induction d with
  | zero => intro s node st en i j hd _ _; omega
  | succ d ih =>
    intro s node st en i j hd hle hj
    by_cases hdis : j < (st : Int) ∨ (en : Int) < i
    · rw [queryCost_one O s node st en i j (Or.inl hdis)]
      omega
    · by_cases hcon : i ≤ (st : Int) ∧ (en : Int) ≤ j
      · rw [queryCost_one O s node st en i j (Or.inr hcon)]
        omega
      · have hst : st < en := branch_lt hdis hcon
        rw [queryCost_split O s node st en i j hdis hcon]
        have hpush := pushCost_le O s node st en hst
        have hclL := clog_child_left hst
        have hclR := clog_child_right hst
        by_cases him : i ≤ (((st + en) / 2 : Nat) : Int)
        · rw [queryCost_one O
            (queryAux O (applyPending O s node st en) (left node) st ((st + en) / 2) i j).2
            (right node) ((st + en) / 2 + 1) en i j (Or.inr ⟨by omega, by omega⟩)]
          have hc2 := ih (applyPending O s node st en) (left node) st ((st + en) / 2) i j
            (by omega) (by omega) (by omega)
          omega
        · rw [queryCost_one O (applyPending O s node st en) (left node) st ((st + en) / 2)
            i j (Or.inl (Or.inr (by omega)))]
          have hc3 := ih
            (queryAux O (applyPending O s node st en) (left node) st ((st + en) / 2) i j).2
            (right node) ((st + en) / 2 + 1) en i j (by omega) (by omega) hj
          omega

theorem queryCost_le (O : SegOps Node Op) :
    ∀ (d : Nat) (s : SegState Node Op) (node st en : Nat) (i j : Int),
      en - st < d → st ≤ en →
      queryCost O s node st en i j ≤ 8 * Nat.clog 2 (en - st + 1) + 3 := by
  intro d
  induction d with
  | zero => intro s node st en i j hd _; omega
  | succ d ih =>
    intro s node st en i j hd hle
    by_cases hi : i ≤ (st : Int)
    · have := queryCost_left_le O (en - st + 1) s node st en i j (by omega) hle hi
      omega
    · by_cases hj : (en : Int) ≤ j
      · have := queryCost_right_le O (en - st + 1) s node st en i j (by omega) hle hj
        omega
      · by_cases hdis : j < (st : Int) ∨ (en : Int) < i
        · rw [queryCost_one O s node st en i j (Or.inl hdis)]
          omega
        · have hcon : ¬(i ≤ (st : Int) ∧ (en : Int) ≤ j) := by omega
          have hst : st < en := branch_lt hdis hcon
          rw [queryCost_split O s node st en i j hdis hcon]
          have hpush := pushCost_le O s node st en hst
          have hclL := clog_child_left hst
          have hclR := clog_child_right hst
          have hpos := Nat.clog_pos (show (1 : Nat) < 2 by norm_num)
            (show 2 ≤ en - st + 1 by omega)
          by_cases him : i ≤ (((st + en) / 2 : Nat) : Int)
          · by_cases hjm : (((st + en) / 2 : Nat) : Int) < j
            · have hc2 := queryCost_right_le O ((st + en) / 2 - st + 1)
                (applyPending O s node st en) (left node) st ((st + en) / 2) i j
                (by omega) (by omega) (by omega)
              have hc3 := queryCost_left_le O (en - ((st + en) / 2 + 1) + 1)
                (queryAux O (applyPending O s node st en) (left node) st ((st + en) / 2) i j).2
                (right node) ((st + en) / 2 + 1) en i j (by omega) (by omega) (by omega)
              omega
            · rw [queryCost_one O
                (queryAux O (applyPending O s node st en) (left node) st ((st + en) / 2) i j).2
                (right node) ((st + en) / 2 + 1) en i j (Or.inl (Or.inl (by omega)))]
              have hc2 := ih (applyPending O s node st en) (left node) st ((st + en) / 2)
                i j (by omega) (by omega)
              omega
          · rw [queryCost_one O (applyPending O s node st en) (left node) st ((st + en) / 2)
              i j (Or.inl (Or.inr (by omega)))]
            have hc3 := ih
              (queryAux O (applyPending O s node st en) (left node) st ((st + en) / 2) i j).2
              (right node) ((st + en) / 2 + 1) en i j (by omega) (by omega)
            omega

/-- C8: every operation terminates (all are total functions of their
arguments, evaluated by the kernel), and for a valid interval on an
`n`-element tree, `query` and `update` execute a number of calls bounded by
`8 * ceil(log2 n) + 3`, while `build` performs exactly `2n - 1` calls. -/
theorem C8_cost_bounds (O : SegOps Node Op) (s : SegState Node Op) (n : Nat)
    (i j : Int) (op : Op) (hn : 1 ≤ n) (hi : 0 ≤ i) (hij : i ≤ j)
    (hjn : j ≤ ((n - 1 : Nat) : Int)) :
    queryCost O s 1 0 (n - 1) i j ≤ 8 * Nat.clog 2 n + 3 ∧
    updateCost O s 1 0 (n - 1) i j op ≤ 8 * Nat.clog 2 n + 3 ∧
    buildCost 0 (n - 1) = 2 * (n - 1) + 1 := by
  have e1 : n - 1 - 0 + 1 = n := by omega
  refine ⟨?_, ?_, ?_⟩
  · have h := queryCost_le O (n - 1 + 1) s 1 0 (n - 1) i j (by omega) (by omega)
    rw [e1] at h
    exact h
  · have h := updateCost_le O (n - 1 + 1) s 1 0 (n - 1) i j op (by omega) (by omega)
    rw [e1] at h
    exact h
  · exact buildCost_linear (n - 1 + 1) 0 (n - 1) (by omega) (by omega)

/-- Witness for C8 on an eight-element tree with the interval `[2, 5]`. -/
theorem C8_cost_bounds_witness :
    ((1 : Nat) ≤ 8 ∧ (0 : Int) ≤ 2 ∧ (2 : Int) ≤ 5 ∧ (5 : Int) ≤ (((8 - 1 : Nat)) : Int)) ∧
    (queryCost mOps (segMake mOps 8 (fun _ => 0)) 1 0 (8 - 1) 2 5
        ≤ 8 * Nat.clog 2 8 + 3 ∧
     updateCost mOps (segMake mOps 8 (fun _ => 0)) 1 0 (8 - 1) 2 5 7
        ≤ 8 * Nat.clog 2 8 + 3 ∧
     buildCost 0 (8 - 1) = 2 * (8 - 1) + 1) := by
  refine ⟨⟨by norm_num, by norm_num, by norm_num, by norm_num⟩, ?_⟩
  exact C8_cost_bounds mOps (segMake mOps 8 (fun _ => 0)) 8 2 5 7 (by norm_num)
    (by norm_num) (by norm_num) (by norm_num)

/-! ### Claim C10

Every arena index that `build`, `query` or `update` addresses (the node
argument of each call, plus the two child indices each partially-overlapping
step reads, writes and pushes into) belongs to the halving call tree rooted
at `(1, 0, n-1)`, and every index in that tree lies in `[1, 4n]` — within
the capacity `4n + 1` allocated by the constructor. -/

theorem reachF_trans {v0 st0 en0 v1 st1 en1 v st en : Nat}
    (h1 : ReachF v0 st0 en0 v1 st1 en1) (h2 : ReachF v1 st1 en1 v st en) :
    ReachF v0 st0 en0 v st en := by
  induction h2 with
  | here => exact h1
  | chL h hst ih => exact ReachF.chL ih hst
  | chR h hst ih => exact ReachF.chR ih hst

theorem reach_pow {n v st en : Nat} (hn : 1 ≤ n)
    (h : ReachF 1 0 (n - 1) v st en) :
    ∃ d, v < 2 ^ (d + 1) ∧ (en - st) * 2 ^ d ≤ n - 1 := by
  induction h with
  | here =>
    exact ⟨0, by norm_num, by simpa using Nat.le_refl (n - 1)⟩
  | @chL v st en h hst ih =>
    obtain ⟨d, hv, hb⟩ := ih
    refine ⟨d + 1, ?_, ?_⟩
    · have e : 2 ^ (d + 1 + 1) = 2 * 2 ^ (d + 1) := by ring
      simp only [left]
      omega
    · calc ((st + en) / 2 - st) * 2 ^ (d + 1)
          = (((st + en) / 2 - st) * 2) * 2 ^ d := by ring
      _ ≤ (en - st) * 2 ^ d := Nat.mul_le_mul_right _ (by omega)
      _ ≤ n - 1 := hb
  | @chR v st en h hst ih =>
    obtain ⟨d, hv, hb⟩ := ih
    refine ⟨d + 1, ?_, ?_⟩
    · have e : 2 ^ (d + 1 + 1) = 2 * 2 ^ (d + 1) := by ring
      simp only [right]
      omega
    · calc (en - ((st + en) / 2 + 1)) * 2 ^ (d + 1)
          = ((en - ((st + en) / 2 + 1)) * 2) * 2 ^ d := by ring
      _ ≤ (en - st) * 2 ^ d := Nat.mul_le_mul_right _ (by omega)
      _ ≤ n - 1 := hb

theorem reach_le {n v st en : Nat} (hn : 1 ≤ n)
    (h : ReachF 1 0 (n - 1) v st en) : 1 ≤ v ∧ v ≤ 4 * n := by
  refine ⟨reachF_one_le (le_refl 1) h, ?_⟩
  cases h with
  | here => omega
  | chL hp hst =>
    obtain ⟨d, hv, hb⟩ := reach_pow hn hp
    have h2 : 2 ^ d ≤ n - 1 := le_trans (Nat.le_mul_of_pos_left _ (by omega)) hb
    have e : 2 ^ (d + 1) = 2 * 2 ^ d := by ring
    simp only [left]
    omega
  | chR hp hst =>
    obtain ⟨d, hv, hb⟩ := reach_pow hn hp
    have h2 : 2 ^ d ≤ n - 1 := le_trans (Nat.le_mul_of_pos_left _ (by omega)) hb
    have e : 2 ^ (d + 1) = 2 * 2 ^ d := by ring
    simp only [right]
    omega

/-- Arena indices addressed by `build(arr, node, st, end)`: the node itself,
and recursively those of the two child calls (whose heads are the child
indices `tree[left(node)]` and `tree[right(node)]` read by the final join). -/
def bnodes (node st en : Nat) : List Nat :=
  if h : en ≤ st then [node]
  else node ::
    (bnodes (left node) st ((st + en) / 2) ++ bnodes (right node) ((st + en) / 2 + 1) en)
termination_by en - st
decreasing_by
  all_goals omega

/-- Arena indices addressed by `query(node, st, end, i, j)`: the node itself
and, in the partially-overlapping branch, the two child indices written by
`applyPending` plus those of the recursive calls. -/
def qnodes (node st en : Nat) (i j : Int) : List Nat :=
  if hdis : j < (st : Int) ∨ (en : Int) < i then [node]
  else if hcon : i ≤ (st : Int) ∧ (en : Int) ≤ j then [node]
  else
    have hst : st < en := branch_lt hdis hcon
    node :: left node :: right node ::
      (qnodes (left node) st ((st + en) / 2) i j
        ++ qnodes (right node) ((st + en) / 2 + 1) en i j)
termination_by en - st
decreasing_by
  all_goals omega

/-- Arena indices addressed by `update(node, st, end, i, j, op)`. -/
def unodes (node st en : Nat) (i j : Int) : List Nat :=
  if hdis : j < (st : Int) ∨ (en : Int) < i then [node]
  else if hleaf : st = en then [node]
  else if hcon : i ≤ (st : Int) ∧ (en : Int) ≤ j then [node]
  else
    have hst : st < en := branch_lt hdis hcon
    node :: left node :: right node ::
      (unodes (left node) st ((st + en) / 2) i j
        ++ unodes (right node) ((st + en) / 2 + 1) en i j)
termination_by en - st
decreasing_by
  all_goals omega

theorem bnodes_reach :
    ∀ (d node st en : Nat), en - st < d →
      ∀ x ∈ bnodes node st en, ∃ st' en', ReachF node st en x st' en' := by
  intro d
  induction d with
  | zero => intro node st en hd; omega
  | succ d ih =>
    intro node st en hd x hx
    unfold bnodes at hx
    by_cases h : en ≤ st
    · rw [dif_pos h] at hx
      simp only [List.mem_singleton] at hx
      exact ⟨st, en, hx ▸ ReachF.here⟩
    · rw [dif_neg h] at hx
      have hst : st < en := by omega
      simp only [List.mem_cons, List.mem_append] at hx
      rcases hx with rfl | hx | hx
      · exact ⟨st, en, ReachF.here⟩
      · obtain ⟨st', en', hr⟩ := ih (left node) st ((st + en) / 2) (by omega) x hx
        exact ⟨st', en', reachF_trans (ReachF.chL ReachF.here hst) hr⟩
      · obtain ⟨st', en', hr⟩ := ih (right node) ((st + en) / 2 + 1) en (by omega) x hx
        exact ⟨st', en', reachF_trans (ReachF.chR ReachF.here hst) hr⟩

theorem qnodes_reach :
    ∀ (d node st en : Nat) (i j : Int), en - st < d →
      ∀ x ∈ qnodes node st en i j, ∃ st' en', ReachF node st en x st' en' := by
  intro d
  induction d with
  | zero => intro node st en i j hd; omega
  | succ d ih =>
    intro node st en i j hd x hx
    unfold qnodes at hx
    by_cases hdis : j < (st : Int) ∨ (en : Int) < i
    · rw [dif_pos hdis] at hx
      simp only [List.mem_singleton] at hx
      exact ⟨st, en, hx ▸ ReachF.here⟩
    · rw [dif_neg hdis] at hx
      by_cases hcon : i ≤ (st : Int) ∧ (en : Int) ≤ j
      · rw [dif_pos hcon] at hx
        simp only [List.mem_singleton] at hx
        exact ⟨st, en, hx ▸ ReachF.here⟩
      · rw [dif_neg hcon] at hx
        have hst : st < en := branch_lt hdis hcon
        simp only [List.mem_cons, List.mem_append] at hx
        rcases hx with rfl | rfl | rfl | hx | hx
        · exact ⟨st, en, ReachF.here⟩
        · exact ⟨st, (st + en) / 2, ReachF.chL ReachF.here hst⟩
        · exact ⟨(st + en) / 2 + 1, en, ReachF.chR ReachF.here hst⟩
        · obtain ⟨st', en', hr⟩ := ih (left node) st ((st + en) / 2) i j (by omega) x hx
          exact ⟨st', en', reachF_trans (ReachF.chL ReachF.here hst) hr⟩
        · obtain ⟨st', en', hr⟩ := ih (right node) ((st + en) / 2 + 1) en i j (by omega) x hx
          exact ⟨st', en', reachF_trans (ReachF.chR ReachF.here hst) hr⟩

theorem unodes_reach :
    ∀ (d node st en : Nat) (i j : Int), en - st < d →
      ∀ x ∈ unodes node st en i j, ∃ st' en', ReachF node st en x st' en' := by
  intro d
  induction d with
  | zero => intro node st en i j hd; omega
  | succ d ih =>
    intro node st en i j hd x hx
    unfold unodes at hx
    by_cases hdis : j < (st : Int) ∨ (en : Int) < i
    · rw [dif_pos hdis] at hx
      simp only [List.mem_singleton] at hx
      exact ⟨st, en, hx ▸ ReachF.here⟩
    · rw [dif_neg hdis] at hx
      by_cases hleaf : st = en
      · rw [dif_pos hleaf] at hx
        simp only [List.mem_singleton] at hx
        exact ⟨st, en, hx ▸ ReachF.here⟩
      · rw [dif_neg hleaf] at hx
        by_cases hcon : i ≤ (st : Int) ∧ (en : Int) ≤ j
        · rw [dif_pos hcon] at hx
          simp only [List.mem_singleton] at hx
          exact ⟨st, en, hx ▸ ReachF.here⟩
        · rw [dif_neg hcon] at hx
          have hst : st < en := branch_lt hdis hcon
          simp only [List.mem_cons, List.mem_append] at hx
          rcases hx with rfl | rfl | rfl | hx | hx
          · exact ⟨st, en, ReachF.here⟩
          · exact ⟨st, (st + en) / 2, ReachF.chL ReachF.here hst⟩
          · exact ⟨(st + en) / 2 + 1, en, ReachF.chR ReachF.here hst⟩
          · obtain ⟨st', en', hr⟩ := ih (left node) st ((st + en) / 2) i j (by omega) x hx
            exact ⟨st', en', reachF_trans (ReachF.chL ReachF.here hst) hr⟩
          · obtain ⟨st', en', hr⟩ := ih (right node) ((st + en) / 2 + 1) en i j (by omega) x hx
            exact ⟨st', en', reachF_trans (ReachF.chR ReachF.here hst) hr⟩

/-- C10: for every `n ≥ 1` and valid interval, all arena indices addressed
by the build, query and update recursions started at the public entry point
`(1, 0, n-1)` lie in `[1, 4n]`, within the capacity `4n + 1` allocated by
`SegTree(n)` — no out-of-bounds access occurs. -/
theorem C10_index_bounds (n : Nat) (i j : Int) (hn : 1 ≤ n) (hi : 0 ≤ i)
    (hij : i ≤ j) (hjn : j ≤ ((n - 1 : Nat) : Int)) :
    (∀ x ∈ bnodes 1 0 (n - 1), 1 ≤ x ∧ x ≤ 4 * n) ∧
    (∀ x ∈ qnodes 1 0 (n - 1) i j, 1 ≤ x ∧ x ≤ 4 * n) ∧
    (∀ x ∈ unodes 1 0 (n - 1) i j, 1 ≤ x ∧ x ≤ 4 * n) := by
  refine ⟨?_, ?_, ?_⟩
  · intro x hx
    obtain ⟨st', en', hr⟩ := bnodes_reach (n - 1 + 1) 1 0 (n - 1) (by omega) x hx
    exact reach_le hn hr
  · intro x hx
    obtain ⟨st', en', hr⟩ := qnodes_reach (n - 1 + 1) 1 0 (n - 1) i j (by omega) x hx
    exact reach_le hn hr
  · intro x hx
    obtain ⟨st', en', hr⟩ := unodes_reach (n - 1 + 1) 1 0 (n - 1) i j (by omega) x hx
    exact reach_le hn hr

/-- Witness for C10 at `n = 5` with the interval `[1, 3]`. -/
theorem C10_index_bounds_witness :
    ((1 : Nat) ≤ 5 ∧ (0 : Int) ≤ 1 ∧ (1 : Int) ≤ 3 ∧ (3 : Int) ≤ (((5 - 1 : Nat)) : Int)) ∧
    ((∀ x ∈ bnodes 1 0 (5 - 1), 1 ≤ x ∧ x ≤ 4 * 5) ∧
     (∀ x ∈ qnodes 1 0 (5 - 1) 1 3, 1 ≤ x ∧ x ≤ 4 * 5) ∧
     (∀ x ∈ unodes 1 0 (5 - 1) 1 3, 1 ≤ x ∧ x ≤ 4 * 5)) := by
  refine ⟨⟨by norm_num, by norm_num, by norm_num, by norm_num⟩, ?_⟩
  exact C10_index_bounds 5 1 3 (by norm_num) (by norm_num) (by norm_num) (by norm_num)

end SegLib
